import Mathlib

/-!
Verification of the SSYNC receiver specification for the swift object store.

The receiver module (`swift/obj/ssync_receiver.py`) and the sender-side
`encode_missing` (`swift/obj/ssync_sender.py`) are not part of the source
tree available here; only their unit tests
(`test/unit/obj/test_ssync_receiver.py`) are.  The definitions below are
therefore modelled from the specification (spec.md), with concrete
behaviours pinned by the assertions of the cited unit tests wherever the
two disagree or the spec is silent.  URL-quoting of wire tokens is omitted
throughout: object hashes are fixed-width hex and timestamp internal forms
use only `[0-9a-f._]`, on which quoting is the identity.
-/

namespace Ssync

/-! ## Timestamps

Modelled from the spec: a timestamp is a value with an auxiliary offset
tiebreaker (spec section 3 and "Offsets in timestamps", section 9).  `raw`
counts units of 10^-5 seconds, matching the 5-decimal normal form; `offset`
is the tiebreaker.  Comparison is lexicographic: later offset wins at equal
value. -/

structure Timestamp where
  raw : Nat
  offset : Nat
deriving DecidableEq, Repr

def Timestamp.lt (a b : Timestamp) : Prop :=
  a.raw < b.raw ∨ (a.raw = b.raw ∧ a.offset < b.offset)

instance (a b : Timestamp) : Decidable (Timestamp.lt a b) := by
  unfold Timestamp.lt; infer_instance

def Timestamp.le (a b : Timestamp) : Prop :=
  a.raw < b.raw ∨ (a.raw = b.raw ∧ a.offset ≤ b.offset)

instance (a b : Timestamp) : Decidable (Timestamp.le a b) := by
  unfold Timestamp.le; infer_instance

/-! ## Digit strings

Helper printers/parsers for the decimal and hexadecimal tokens of the wire
format.  `digitsRevFuel` produces the little-endian digit list of `n`
(fuel-bounded so that every definition stays kernel-computable). -/

def digitChar (d : Nat) : Char :=
  if d < 10 then Char.ofNat (48 + d) else Char.ofNat (87 + d)

def digitVal (c : Char) : Option Nat :=
  if 48 ≤ c.toNat ∧ c.toNat ≤ 57 then some (c.toNat - 48)
  else if 97 ≤ c.toNat ∧ c.toNat ≤ 102 then some (c.toNat - 87)
  else none

def digitsRevFuel (b : Nat) : Nat → Nat → List Nat
  | 0, _ => []
  | f + 1, n => if n = 0 then [] else n % b :: digitsRevFuel b f (n / b)

/-- Value of a little-endian digit list. -/
def ofDigitsRev (b : Nat) (ds : List Nat) : Nat :=
  ds.foldr (fun d acc => d + b * acc) 0

def natDigits (b n : Nat) : List Nat := (digitsRevFuel b n n).reverse

/-- `%d` / `%x`-style rendering of `n` in base `b` (lowercase digits). -/
def natStr (b n : Nat) : List Char :=
  if n = 0 then ['0'] else (natDigits b n).map digitChar

def padLeft (w : Nat) (cs : List Char) : List Char :=
  List.replicate (w - cs.length) '0' ++ cs

def parseNatGo (b : Nat) : Nat → List Char → Option Nat
  | acc, [] => some acc
  | acc, c :: cs =>
    match digitVal c with
    | some d => if d < b then parseNatGo b (acc * b + d) cs else none
    | none => none

/-- `int(s, b)`-style parse; fails on the empty string or a non-digit. -/
def parseNat (b : Nat) (cs : List Char) : Option Nat :=
  if cs = [] then none else parseNatGo b 0 cs

/-! ## Rendering and parsing of timestamps

Modelled from the spec: the wire timestamp is the "internal" form, a
10-digit zero-padded integer second count, a dot, five decimal digits, and,
when the offset tiebreaker is non-zero, an underscore followed by the
16-digit zero-padded lowercase hex offset (spec sections 3 and 9; the
format is pinned by `test_decode_missing`, which uses
`1400000000.00000_0000000000000063`-style strings). -/

def decPad (w n : Nat) : List Char := padLeft w (natStr 10 n)

def Timestamp.normalChars (t : Timestamp) : List Char :=
  decPad 10 (t.raw / 100000) ++ '.' :: decPad 5 (t.raw % 100000)

def Timestamp.internalChars (t : Timestamp) : List Char :=
  t.normalChars ++ (if t.offset = 0 then [] else '_' :: padLeft 16 (natStr 16 t.offset))

/-- Split at the first occurrence of `sep`; `none` when `sep` is absent. -/
def splitOnce (sep : Char) : List Char → Option (List Char × List Char)
  | [] => none
  | c :: cs =>
    if c = sep then some ([], cs)
    else (splitOnce sep cs).map (fun p => (c :: p.1, p.2))

/-- Parse the normal (un-offset) timestamp form `SSSS.FFFFF`. -/
def parseNormal (cs : List Char) : Option Nat :=
  match splitOnce '.' cs with
  | some (ip, fp) =>
    match parseNat 10 ip, parseNat 10 fp with
    | some i, some f =>
      if fp.length ≤ 5 then some (i * 100000 + f * 10 ^ (5 - fp.length)) else none
    | _, _ => none
  | none => (parseNat 10 cs).map (fun i => i * 100000)

/-- Parse the internal timestamp form, with its optional `_offset` part. -/
def parseInternal (cs : List Char) : Option Timestamp :=
  match splitOnce '_' cs with
  | some (nom, off) =>
    match parseNormal nom, parseNat 16 off with
    | some r, some o => some ⟨r, o⟩
    | _, _ => none
  | none => (parseNormal cs).map (fun r => ⟨r, 0⟩)

/-! ## Wire-line splitting

`splitChar` mirrors Python's `str.split(sep)`; `splitWs` mirrors the
whitespace `str.split()` used on missing-check lines (empty tokens
dropped). -/

def splitChar (sep : Char) : List Char → List (List Char)
  | [] => [[]]
  | c :: cs =>
    match splitChar sep cs with
    | [] => [[]]
    | p :: ps => if c = sep then [] :: p :: ps else (c :: p) :: ps

def splitWs (cs : List Char) : List (List Char) :=
  (splitChar ' ' cs).filter (fun p => p ≠ [])

/-- Python `v.partition('__')`: the part before the first `__`, and the part
after it when present. -/
def partitionDunder : List Char → List Char × Option (List Char)
  | [] => ([], none)
  | [c] => ([c], none)
  | c :: d :: rest =>
    if c = '_' ∧ d = '_' then ([], some rest)
    else
      let p := partitionDunder (d :: rest)
      (c :: p.1, p.2)

/-! ## The missing-check wire format

Modelled from the spec: section 4.3 gives the row grammar
`<hash> <ts_data>[ <delta-list>][ <ignored-extras...>]` with subparts
`m:<hexΔ>`, `t:<hexΔ>` (each with an optional `__<hex offset>` suffix,
pinned by `test_decode_missing`) and `durable:<...>`; unknown subparts and
trailing tokens are ignored.  `decode_missing` lives in the receiver
module, `encode_missing` in the sender module; neither is under `src/`. -/

/-- The `<hexΔ>[__<hex offset>]` value of an `m:`/`t:` subpart as produced
by the encoder. -/
def dunderVal (delta off : Nat) : List Char :=
  natStr 16 delta ++ (if off = 0 then [] else '_' :: '_' :: natStr 16 off)

structure MissingRec where
  object_hash : List Char
  ts_data : Timestamp
  ts_meta : Timestamp
  ts_ctype : Timestamp
  durable : Bool
deriving DecidableEq, Repr

/-- Swift `config_true_value`: true exactly for `1/true/yes/on/t/y`
(case-insensitive). -/
def configTrueValue (v : List Char) : Bool :=
  let lv := v.map Char.toLower
  lv = "1".toList ∨ lv = "true".toList ∨ lv = "yes".toList ∨ lv = "on".toList ∨
    lv = "t".toList ∨ lv = "y".toList

/-- Parse the `<hexΔ>[__<hex offset>]` value of an `m:`/`t:` subpart. -/
def parseDeltaOffset (v : List Char) : Option (Nat × Nat) :=
  let p := partitionDunder v
  match parseNat 16 p.1 with
  | none => none
  | some d =>
    match p.2 with
    | none => some (d, 0)
    | some o => if o = [] then some (d, 0) else (parseNat 16 o).map (fun x => (d, x))

/-- Apply one `k:v` subpart to the record being decoded.  Fails (like the
exact-arity unpack in the source) when the item does not split into exactly
two pieces at `:`; unknown keys are ignored. -/
def applySubpart (tsData : Timestamp) (r : MissingRec) (item : List Char) :
    Option MissingRec :=
  match splitChar ':' item with
  | [k, v] =>
    if k = "m".toList then
      (parseDeltaOffset v).map (fun p => { r with ts_meta := ⟨tsData.raw + p.1, p.2⟩ })
    else if k = "t".toList then
      (parseDeltaOffset v).map (fun p => { r with ts_ctype := ⟨tsData.raw + p.1, p.2⟩ })
    else if k = "durable".toList then
      some { r with durable := configTrueValue v }
    else some r
  | _ => none

/-- Fold the comma-separated subpart list into the record; items without a
colon are skipped. -/
def decodeSubs (tsData : Timestamp) (r0 : MissingRec) (sub : List Char) :
    Option MissingRec :=
  (splitChar ',' sub).foldlM
    (fun r item => if ':' ∈ item then applySubpart tsData r item else some r) r0

/-- `ssync_receiver.decode_missing`, modelled from the spec (section 4.3)
with the exact field defaults pinned by `test_decode_missing`: `ts_meta`
and `ts_ctype` default to `ts_data`, `durable` defaults to true, and only
the third whitespace-separated token is examined for subparts. -/
def decode_missing (line : List Char) : Option MissingRec :=
  match splitWs line with
  | hash :: tsStr :: rest =>
    match parseInternal tsStr with
    | none => none
    | some td =>
      let r0 : MissingRec := ⟨hash, td, td, td, true⟩
      match rest with
      | [] => some r0
      | sub :: _ => decodeSubs td r0 sub
  | _ => none

/-- `ssync_sender.encode_missing`, modelled from the spec: the hash and the
internal data timestamp, then a comma-separated delta list holding `m:`
iff `ts_meta` differs from `ts_data`, `t:` iff `ts_ctype` differs, each
with a `__<hex offset>` suffix when the subordinate timestamp carries an
offset, and `durable:no` iff the fragment is not durable (spec sections
4.3 and 8). -/
def encode_missing (hash : List Char) (ts_data ts_meta ts_ctype : Timestamp)
    (durable : Bool) : List Char :=
  let mPart : List (List Char) :=
    if ts_meta = ts_data then []
    else ['m' :: ':' :: dunderVal (ts_meta.raw - ts_data.raw) ts_meta.offset]
  let tPart : List (List Char) :=
    if ts_ctype = ts_data then []
    else ['t' :: ':' :: dunderVal (ts_ctype.raw - ts_data.raw) ts_ctype.offset]
  let dPart : List (List Char) := if durable then [] else ["durable:no".toList]
  let extra := mPart ++ tPart ++ dPart
  let base := hash ++ ' ' :: ts_data.internalChars
  if extra = [] then base else base ++ ' ' :: List.intercalate [','] extra

/-! ## Wanted-code computation

Modelled from the spec: the reply code is a pure function of the announced
tuple and the local state (spec section 3, invariant 2; section 4.3 reply
table).  The exact case split is pinned by `test_encode_wanted`: data is
wanted when the local record is absent or its `ts_data` is older; meta is
wanted when the local record is absent, or it carries a `ts_meta` older
than the remote one, or it carries a `ts_ctype` older than a remote
`ts_ctype` that is itself newer than the remote `ts_data`.  The reply is
`<hash> d`, `<hash> m` or `<hash> dm`, or no reply when nothing is
wanted. -/

structure LocalView where
  ts_data : Option Timestamp
  ts_meta : Option Timestamp
  ts_ctype : Option Timestamp
deriving DecidableEq, Repr

def emptyView : LocalView := ⟨none, none, none⟩

def encode_wanted (remote : MissingRec) (loc : LocalView) : Option (List Char) :=
  let wantData : Bool :=
    match loc.ts_data with
    | some t => Timestamp.lt t remote.ts_data
    | none => true
  let wantMeta : Bool :=
    match loc.ts_data with
    | none => true
    | some _ =>
      (match loc.ts_meta with
       | some m => decide (Timestamp.lt m remote.ts_meta)
       | none => false) ||
      (match loc.ts_ctype with
       | some c => decide (Timestamp.lt c remote.ts_ctype) &&
           decide (Timestamp.lt remote.ts_data remote.ts_ctype)
       | none => false)
  let parts := (if wantData then ['d'] else []) ++ (if wantMeta then ['m'] else [])
  if parts = [] then none else some (remote.object_hash ++ ' ' :: parts)

/-! ## Local on-disk state and the missing-check row

Modelled from the spec: the local store holds, per object hash, either
nothing, a tombstone, or a data record with three timestamps, a durability
flag, an optional fragment index, and an expiry flag (`X-Delete-At` already
passed).  An expired data file is still opened and compared (behaviour
pinned by `test_MISSING_CHECK_missing_meta_expired_data`); a non-durable
EC fragment is not visible to a plain open (pinned by
`test_MISSING_CHECK_local_non_durable`). -/

inductive LocalState where
  | tombstone (ts : Timestamp)
  | data (ts_data ts_meta ts_ctype : Timestamp) (durable : Bool)
      (fragIndex : Option Nat) (expired : Bool)
deriving DecidableEq, Repr

structure RxCtx where
  fragIndex : Option Nat
  commitOk : Bool
  failureThreshold : Nat
  failureRatioQ : ℚ

def localViewOf : Option LocalState → LocalView
  | none => emptyView
  | some (.tombstone t) => ⟨some t, none, none⟩
  | some (.data td tm tc dur _ _) =>
    if dur then ⟨some td, some tm, some tc⟩ else emptyView

/-- One missing-check row, modelled from the spec (section 4.3): compare
the announced tuple to the local state and produce the optional reply
line, the updated local state, and whether an exception was logged.  The
durability-promotion rule: when the local fragment exists non-durably at
the remote `ts_data` with a matching fragment index and the remote is
durable, the fragment is committed durable and no reply is emitted; if the
commit raises, the row is downgraded to `dm` and the exception is logged
(spec section 4.3, rows and promotion paragraph; pinned by
`test_MISSING_CHECK_missing_durable` and
`test_MISSING_CHECK_missing_durable_but_commit_fails`). -/
def missing_check_row (ctx : RxCtx) (remote : MissingRec) (st : Option LocalState) :
    Option (List Char) × Option LocalState × Bool :=
  match st with
  | some (.data td tm tc false fi e) =>
    if remote.ts_data = td ∧ ctx.fragIndex = fi then
      if remote.durable then
        if ctx.commitOk then
          (none, some (.data td tm tc true fi e), false)
        else
          (encode_wanted remote emptyView, st, true)
      else
        (none, st, false)
    else
      (encode_wanted remote (localViewOf st), st, false)
  | _ => (encode_wanted remote (localViewOf st), st, false)

/-! ## The line reader

Modelled from the spec (section 4.1): `readLine` returns the next line
without its terminator (the `\r` is removed by the caller's strip, as in
the source's `line.strip()`), `stripWs` is Python `str.strip()`. -/

def readLine : List Char → List Char × List Char
  | [] => ([], [])
  | c :: cs =>
    if c = '\n' then ([], cs)
    else
      let p := readLine cs
      (c :: p.1, p.2)

def isWsChar (c : Char) : Bool := c = ' ' || c = '\r' || c = '\n' || c = '\t'

def stripWs (cs : List Char) : List Char :=
  ((cs.dropWhile isWsChar).reverse.dropWhile isWsChar).reverse

/-! ## The updates phase

Modelled from the spec (section 4.4).  A sub-request is a method/path
line, a header block terminated by a blank line, and, for `PUT`, a body of
exactly the declared `Content-Length` bytes.  Structural errors terminate
the phase with an in-band error (behaviour pinned by `test_UPDATES_BONK`,
`test_UPDATES_bad_subrequest_line`, `test_UPDATES_no_headers`,
`test_UPDATES_content_length_with_DELETE`,
`test_UPDATES_no_content_length_with_PUT`); dispatch outcomes are supplied
by an oracle `Nat → Bool × Nat` giving, for the k-th dispatched
sub-request, whether the handler returns 2xx and how many body bytes the
handler itself reads (the receiver drains the rest, pinned by
`test_UPDATES_subreq_does_not_read_all`). -/

structure SubReq where
  method : List Char
  path : List Char
  headers : List (List Char × List Char)
  contentLength : Option Nat
  body : List Char
  bodyRead : List Char
  success : Bool
deriving DecidableEq, Repr

inductive HdrRes where
  | ok (hdrs : List (List Char × List Char)) (cl : Option Nat) (rest : List Char)
  | errNoHeaders
  | errUnpack
  | errBadCL (v : List Char)
deriving DecidableEq, Repr

/-- Read header lines until a blank line; lowercases names, records the
parsed `Content-Length`.  A header line without a colon is an unpack
error; EOF before the blank line means no headers arrived. -/
def parseHdrs : Nat → List Char → List (List Char × List Char) → Option Nat → HdrRes
  | 0, _, _, _ => .errNoHeaders
  | fuel + 1, cs, acc, cl =>
    if cs = [] then .errNoHeaders
    else
      let p := readLine cs
      let l := stripWs p.1
      if l = [] then .ok acc.reverse cl p.2
      else
        match splitOnce ':' l with
        | none => .errUnpack
        | some kv =>
          let hl := (stripWs kv.1).map Char.toLower
          let vl := stripWs kv.2
          if hl = "content-length".toList then
            match parseNat 10 vl with
            | some n => parseHdrs fuel p.2 ((hl, vl) :: acc) (some n)
            | none => .errBadCL vl
          else parseHdrs fuel p.2 ((hl, vl) :: acc) cl

inductive UpdRes where
  | ended (ok : Nat) (fail : Nat) (reqs : List SubReq)
  | aborted (fail : Nat) (ok : Nat) (reqs : List SubReq)
  | structError (msg : List Char) (reqs : List SubReq)
  | earlyTerm (method path : List Char) (reqs : List SubReq)
deriving DecidableEq, Repr

def unpackMsg : List Char := "not enough values to unpack (expected 2, got 1)".toList

/-- The abort condition, modelled from the spec (section 4.4):
`failure_count ≥ failure_threshold` AND
`failure_count > failure_ratio × success_count`, the comparison written by
cross-multiplying with the ratio's (positive) denominator. -/
def abortCond (thr : Nat) (ratio : ℚ) (f s : Nat) : Bool :=
  thr ≤ f ∧ ratio.num * (s : Int) < (f : Int) * (ratio.den : Int)

/-- The updates-phase loop.  One unit of fuel per sub-request; each header
block is parsed with its own stream-length fuel. -/
def updLoop (ctx : RxCtx) (oracle : Nat → Bool × Nat) :
    Nat → List Char → Nat → Nat → Nat → List SubReq → UpdRes
  | 0, _, s, f, _, acc => .ended s f acc.reverse
  | fuel + 1, cs, s, f, k, acc =>
    if cs = [] then .ended s f acc.reverse
    else
      let p := readLine cs
      let l := stripWs p.1
      if l = ":UPDATES: END".toList then .ended s f acc.reverse
      else
        match splitOnce ' ' l with
        | none => .structError unpackMsg acc.reverse
        | some mp =>
          let method := mp.1
          let path := mp.2
          match parseHdrs (p.2.length + 1) p.2 [] none with
          | .errNoHeaders =>
            .structError ("Got no headers for ".toList ++ method ++ ' ' :: path) acc.reverse
          | .errUnpack => .structError unpackMsg acc.reverse
          | .errBadCL v =>
            .structError ("invalid literal for int() with base 10: ".toList ++ v) acc.reverse
          | .ok hdrs cl rest2 =>
            if method = "DELETE".toList ∨ method = "POST".toList then
              if cl = none ∨ cl = some 0 then
                let oc := oracle k
                let req : SubReq := ⟨method, path, hdrs, cl, [], [], oc.1⟩
                let s1 := if oc.1 then s + 1 else s
                let f1 := if oc.1 then f else f + 1
                if abortCond ctx.failureThreshold ctx.failureRatioQ f1 s1 then
                  .aborted f1 s1 (req :: acc).reverse
                else updLoop ctx oracle fuel rest2 s1 f1 (k + 1) (req :: acc)
              else
                .structError (method ++ " subrequest with content-length ".toList ++ path)
                  acc.reverse
            else if method = "PUT".toList then
              match cl with
              | none =>
                .structError ("No content-length sent for ".toList ++ method ++ ' ' :: path)
                  acc.reverse
              | some n =>
                if rest2.length < n then .earlyTerm method path acc.reverse
                else
                  let body := rest2.take n
                  let rest3 := rest2.drop n
                  let oc := oracle k
                  let req : SubReq := ⟨method, path, hdrs, some n, body, body.take oc.2, oc.1⟩
                  let s1 := if oc.1 then s + 1 else s
                  let f1 := if oc.1 then f else f + 1
                  if abortCond ctx.failureThreshold ctx.failureRatioQ f1 s1 then
                    .aborted f1 s1 (req :: acc).reverse
                  else updLoop ctx oracle fuel rest3 s1 f1 (k + 1) (req :: acc)
            else .structError ("Invalid subrequest method ".toList ++ method) acc.reverse

/-! ## Framed output

Modelled from the spec (sections 4.5 and 6): error lines are
`:ERROR: <decimal code> '<message>'`; errors that carry an HTTP error body
quote the bytes Python-style as `b'<body>'` (pinned by
`test_SSYNC_semaphore_locked` and `test_UPDATES_failures`). -/

/-- The ASCII single-quote character. -/
def sq : Char := Char.ofNat 39

def errorLine (code : Nat) (msg : List Char) : List Char :=
  ":ERROR: ".toList ++ natStr 10 code ++ ' ' :: sq :: (msg ++ [sq])

def bytesRepr (s : List Char) : List Char := 'b' :: sq :: (s ++ [sq])

def errorLineB (code : Nat) (body : List Char) : List Char :=
  ":ERROR: ".toList ++ natStr 10 code ++ ' ' :: bytesRepr body

def tooManyMsg (f s : Nat) : List Char :=
  "Too many ".toList ++ natStr 10 f ++ " failures to ".toList ++ natStr 10 s ++
    " successes".toList

def withUpdatesMsg (f s : Nat) : List Char :=
  "ERROR: With :UPDATES: ".toList ++ natStr 10 f ++ " failures to ".toList ++
    natStr 10 s ++ " successes".toList

/-- Lines, exception-logged flag and error-logged flag produced by the end
of the updates phase (pinned by `test_UPDATES_failures`,
`test_UPDATES_BONK` and `test_UPDATES_early_termination`). -/
def updLines : UpdRes → List (List Char) × Bool × Bool
  | .ended s f _ =>
    if f = 0 then ([":UPDATES: START".toList, ":UPDATES: END".toList], false, false)
    else ([errorLineB 500 (withUpdatesMsg f s)], false, false)
  | .aborted f s _ => ([errorLine 0 (tooManyMsg f s)], true, false)
  | .structError msg _ => ([errorLine 0 msg], true, false)
  | .earlyTerm _ _ _ => ([], false, true)

/-! ## The missing-check phase loop and the session -/

inductive MCRes where
  | ok (replies : List (List Char)) (logged : Bool) (rest : List Char)
  | err (line : List Char)

def diskUpdate (disk : List Char → Option LocalState) (h : List Char)
    (st : Option LocalState) : List Char → Option LocalState :=
  fun x => if x = h then st else disk x

/-- The missing-check loop: one row per line until `:MISSING_CHECK: END`.
Returns the reply lines, whether a commit exception was logged, and the
rest of the stream, threading the disk state. -/
def mcLoop (ctx : RxCtx) :
    Nat → List Char → (List Char → Option LocalState) → List (List Char) → Bool →
      MCRes × (List Char → Option LocalState)
  | 0, _, disk, _, _ => (.err (errorLine 0 "missing_check line".toList), disk)
  | fuel + 1, cs, disk, acc, lg =>
    if cs = [] then (.err (errorLine 0 "missing_check line".toList), disk)
    else
      let p := readLine cs
      let l := stripWs p.1
      if l = ":MISSING_CHECK: END".toList then (.ok acc.reverse lg p.2, disk)
      else
        match decode_missing l with
        | none => (.err (errorLine 0 "missing_check line".toList), disk)
        | some remote =>
          let r := missing_check_row ctx remote (disk remote.object_hash)
          let acc1 := match r.1 with | some line => line :: acc | none => acc
          mcLoop ctx fuel p.2 (diskUpdate disk remote.object_hash r.2.1) acc1
            (lg || r.2.2)

structure Output where
  status : Nat
  lines : List (List Char)
  exceptionLogged : Bool
  errorLogged : Bool
deriving DecidableEq, Repr

def svcUnavailBody : List Char :=
  ("<html><h1>Service Unavailable</h1><p>The server is currently unavailable. " ++
    "Please try again at a later time.</p></html>").toList

/-- The whole SSYNC session after routing, modelled from the spec
(sections 4.2, 4.5).  `sem` is the outcome of the non-blocking
`tryacquire` on the process-wide replication semaphore: on failure the
session emits a single in-band `:ERROR: 503 b'<standard 503 body>'` line
with HTTP status 200 and enters no phase (behaviour pinned by
`test_SSYNC_semaphore_locked`, which diverges from the HTTP-level 503 the
spec describes).  Otherwise the missing-check phase runs, then the updates
phase; the HTTP status is 200 throughout, with protocol errors in-band. -/
def ssyncSession (sem : Bool) (ctx : RxCtx) (oracle : Nat → Bool × Nat)
    (disk : List Char → Option LocalState) (stream : List Char) :
    Output × (List Char → Option LocalState) :=
  if ¬ sem then
    (⟨200, [errorLineB 503 svcUnavailBody], false, false⟩, disk)
  else
    let p := readLine stream
    if stripWs p.1 ≠ ":MISSING_CHECK: START".toList then
      (⟨200, [errorLine 0 "missing_check start".toList], true, false⟩, disk)
    else
      match mcLoop ctx (p.2.length + 1) p.2 disk [] false with
      | (.err l, disk2) => (⟨200, [l], true, false⟩, disk2)
      | (.ok replies lg rest2, disk2) =>
        let mcOut := ":MISSING_CHECK: START".toList ::
          (replies ++ [":MISSING_CHECK: END".toList])
        let q := readLine rest2
        if stripWs q.1 ≠ ":UPDATES: START".toList then
          (⟨200, mcOut ++ [errorLine 0 "updates start".toList], true, false⟩, disk2)
        else
          let r := updLoop ctx oracle (q.2.length + 1) q.2 0 0 0 []
          let u := updLines r
          (⟨200, mcOut ++ u.1, lg || u.2.1, u.2.2⟩, disk2)

/-! ## Wire fragments and the reference delete loop

`putWire` is the exact byte sequence of a PUT sub-request header block with
a declared `Content-Length`; `delWire` and `bonkWire` are the literal
sub-requests used by `test_UPDATES_failures` and `test_UPDATES_BONK`.
`runDel`, `cntS`, `cntF` and `firstTripFrom` form the arithmetic reference
model of the updates loop on a stream of DELETE sub-requests, used to state
the abort policy. -/

def putWire (path : List Char) (n : Nat) : List Char :=
  "PUT ".toList ++ path ++ "\r\n".toList ++
    "Content-Length: ".toList ++ natStr 10 n ++ "\r\n\r\n".toList

def bonkWire : List Char :=
  "BONK /a/c/o\r\nX-Timestamp: 1364456113.76334\r\n\r\n".toList

def delWire : List Char :=
  "DELETE /a/c/o\r\nX-Timestamp: 1364456113.76334\r\n\r\n".toList

def deleteStream (n : Nat) : List Char := (List.replicate n delWire).flatten

/-- Successes among the first `k` dispatched sub-requests. -/
def cntS (oracle : Nat → Bool × Nat) : Nat → Nat
  | 0 => 0
  | k + 1 => cntS oracle k + (if (oracle k).1 then 1 else 0)

/-- Failures among the first `k` dispatched sub-requests. -/
def cntF (oracle : Nat → Bool × Nat) : Nat → Nat
  | 0 => 0
  | k + 1 => cntF oracle k + (if (oracle k).1 then 0 else 1)

/-- The dispatched record of the `k`-th DELETE sub-request of `delWire`. -/
def delReq (oracle : Nat → Bool × Nat) (k : Nat) : SubReq :=
  ⟨"DELETE".toList, "/a/c/o".toList,
    [("x-timestamp".toList, "1364456113.76334".toList)], none, [], [],
    (oracle k).1⟩

def delReqs (oracle : Nat → Bool × Nat) (j m : Nat) (acc : List SubReq) :
    List SubReq :=
  ((((List.range' j m).map (delReq oracle)).reverse) ++ acc).reverse

/-- The first evaluation point in `(j, j+m]` at which the abort condition
holds, scanning forward. -/
def firstTripFrom (thr : Nat) (ratio : ℚ) (oracle : Nat → Bool × Nat) :
    Nat → Nat → Option Nat
  | _, 0 => none
  | j, m + 1 =>
    if abortCond thr ratio (cntF oracle (j + 1)) (cntS oracle (j + 1)) then some (j + 1)
    else firstTripFrom thr ratio oracle (j + 1) m

/-- Reference model of the updates loop on a stream of `n` copies of
`delWire`. -/
def runDel (thr : Nat) (ratio : ℚ) (oracle : Nat → Bool × Nat) :
    Nat → Nat → Nat → Nat → List SubReq → UpdRes
  | 0, s, f, _, acc => .ended s f acc.reverse
  | n + 1, s, f, k, acc =>
    let oc := oracle k
    let req := delReq oracle k
    let s1 := if oc.1 then s + 1 else s
    let f1 := if oc.1 then f else f + 1
    if abortCond thr ratio f1 s1 then .aborted f1 s1 (req :: acc).reverse
    else runDel thr ratio oracle n s1 f1 (k + 1) (req :: acc)

/-! ## Theorems -/

theorem digitsRevFuel_spec (b : Nat) (hb : 2 ≤ b) :
    ∀ f n, n ≤ f →
      ofDigitsRev b (digitsRevFuel b f n) = n ∧
      ∀ d ∈ digitsRevFuel b f n, d < b := by
  intro f
  induction f with
  | zero =>
    intro n hn
    have : n = 0 := Nat.le_zero.mp hn
    subst this
    simp [digitsRevFuel, ofDigitsRev]
  | succ f ih =>
    intro n hn
    by_cases h0 : n = 0
    · subst h0; simp [digitsRevFuel, ofDigitsRev]
    · have hdiv : n / b ≤ f := by
        have hlt : n / b < n := Nat.div_lt_self (Nat.pos_of_ne_zero h0) (by omega)
        omega
      have ihd := ih (n / b) hdiv
      constructor
      · simp only [digitsRevFuel, if_neg h0, ofDigitsRev, List.foldr_cons]
        have : (digitsRevFuel b f (n / b)).foldr (fun d acc => d + b * acc) 0 = n / b := ihd.1
        rw [this]
        have := Nat.mod_add_div n b
        omega
      · intro d hd
        simp only [digitsRevFuel, if_neg h0, List.mem_cons] at hd
        rcases hd with h | h
        · subst h; exact Nat.mod_lt _ (by omega)
        · exact ihd.2 d h

theorem digitVal_digitChar (d : Nat) (hd : d < 16) : digitVal (digitChar d) = some d := by
  interval_cases d <;> decide

theorem parseNatGo_digits (b : Nat) (hb16 : b ≤ 16) :
    ∀ (ds : List Nat) (acc : Nat), (∀ d ∈ ds, d < b) →
      parseNatGo b acc (ds.map digitChar) = some (ds.foldl (fun a d => a * b + d) acc) := by
  intro ds
  induction ds with
  | nil => intro acc _; simp [parseNatGo]
  | cons d ds ih =>
    intro acc hall
    have hd : d < b := hall d (List.mem_cons_self d ds)
    have hd16 : d < 16 := lt_of_lt_of_le hd hb16
    simp only [List.map_cons, parseNatGo, digitVal_digitChar d hd16, if_pos hd,
      List.foldl_cons]
    exact ih (acc * b + d) (fun x hx => hall x (List.mem_cons_of_mem _ hx))

theorem foldl_reverse_ofDigitsRev (b : Nat) :
    ∀ ds acc, ds.reverse.foldl (fun a d => a * b + d) acc =
      acc * b ^ ds.length + ofDigitsRev b ds := by
  intro ds
  induction ds with
  | nil => intro acc; simp [ofDigitsRev]
  | cons d ds ih =>
    intro acc
    simp only [List.reverse_cons, List.foldl_append, List.foldl_cons, List.foldl_nil,
      ih acc, ofDigitsRev, List.foldr_cons, List.length_cons]
    show (acc * b ^ ds.length + ds.foldr (fun d acc => d + b * acc) 0) * b + d =
      acc * b ^ (ds.length + 1) + (d + b * ds.foldr (fun d acc => d + b * acc) 0)
    ring

theorem readLine_append (a b : List Char) (h : '\n' ∉ a) :
    readLine (a ++ '\n' :: b) = (a, b) := by
  induction a with
  | nil => simp [readLine]
  | cons c a ih =>
    have hc : c ≠ '\n' := fun hc => h (hc ▸ List.mem_cons_self c a)
    have hn : '\n' ∉ a := fun hm => h (List.mem_cons_of_mem c hm)
    simp [readLine, hc, ih hn]

theorem readLine_shrink (cs : List Char) (h : cs ≠ []) :
    (readLine cs).2.length < cs.length := by
  induction cs with
  | nil => exact absurd rfl h
  | cons c cs ih =>
    by_cases hc : c = '\n'
    · simp [readLine, hc]
    · simp only [readLine, if_neg hc, List.length_cons]
      cases cs with
      | nil => simp [readLine]
      | cons d ds => exact Nat.lt_succ_of_lt (ih (by simp))

theorem dropWhile_eq_self_of_none (p : Char → Bool) (cs : List Char)
    (h : ∀ c ∈ cs, p c = false) : cs.dropWhile p = cs := by
  cases cs with
  | nil => rfl
  | cons c cs =>
    rw [List.dropWhile_cons_of_neg]
    simp [h c (List.mem_cons_self c cs)]

theorem stripWs_eq_self (cs : List Char) (h : ∀ c ∈ cs, isWsChar c = false) :
    stripWs cs = cs := by
  unfold stripWs
  rw [dropWhile_eq_self_of_none _ _ h,
    dropWhile_eq_self_of_none _ _ (fun c hc => h c (List.mem_reverse.mp hc)),
    List.reverse_reverse]

theorem stripEnd_cr (a : List Char) :
    ((a ++ ['\r']).reverse.dropWhile isWsChar).reverse =
      (a.reverse.dropWhile isWsChar).reverse := by
  simp [List.dropWhile_cons_of_pos, isWsChar]

theorem stripEnd_last (a : List Char) (d : Char) (hd : isWsChar d = false) :
    ((a ++ [d]).reverse.dropWhile isWsChar).reverse = a ++ [d] := by
  rw [List.reverse_append]
  simp only [List.reverse_cons, List.reverse_nil, List.nil_append, List.singleton_append]
  rw [List.dropWhile_cons_of_neg (by simp [hd])]
  simp

/-- Stripping a CRLF-line whose visible text starts and ends with
non-whitespace removes exactly the trailing `\r`. -/
theorem stripWs_line (c : Char) (mid : List Char) (d : Char)
    (hc : isWsChar c = false) (hd : isWsChar d = false) :
    stripWs (c :: ((mid ++ [d]) ++ ['\r'])) = c :: (mid ++ [d]) := by
  have key : c :: ((mid ++ [d]) ++ ['\r']) = ((c :: mid) ++ [d]) ++ ['\r'] := by simp
  unfold stripWs
  rw [List.dropWhile_cons_of_neg (by simp [hc]), key, stripEnd_cr ((c :: mid) ++ [d]),
    stripEnd_last (c :: mid) d hd]
  simp

theorem splitOnce_not_mem (sep : Char) (a : List Char) (h : sep ∉ a) :
    splitOnce sep a = none := by
  induction a with
  | nil => rfl
  | cons c a ih =>
    have hc : c ≠ sep := fun hc => h (hc ▸ List.mem_cons_self c a)
    have ha : sep ∉ a := fun hm => h (List.mem_cons_of_mem c hm)
    simp [splitOnce, hc, ih ha]

theorem splitOnce_append (sep : Char) (a b : List Char) (h : sep ∉ a) :
    splitOnce sep (a ++ sep :: b) = some (a, b) := by
  induction a with
  | nil => simp [splitOnce]
  | cons c a ih =>
    have hc : c ≠ sep := fun hc => h (hc ▸ List.mem_cons_self c a)
    have ha : sep ∉ a := fun hm => h (List.mem_cons_of_mem c hm)
    simp [splitOnce, hc, ih ha]

theorem splitChar_ne_nil (sep : Char) (a : List Char) : splitChar sep a ≠ [] := by
  cases a with
  | nil => simp [splitChar]
  | cons c cs =>
    simp only [splitChar]
    cases splitChar sep cs with
    | nil => simp
    | cons p ps =>
      by_cases hc : c = sep <;> simp [hc]

theorem splitChar_no_sep (sep : Char) (a : List Char) (h : sep ∉ a) :
    splitChar sep a = [a] := by
  induction a with
  | nil => rfl
  | cons c a ih =>
    have hc : c ≠ sep := fun hc => h (hc ▸ List.mem_cons_self c a)
    have ha : sep ∉ a := fun hm => h (List.mem_cons_of_mem c hm)
    simp [splitChar, ih ha, hc]

theorem splitChar_append (sep : Char) (a b : List Char) :
    splitChar sep (a ++ sep :: b) = splitChar sep a ++ splitChar sep b := by
  induction a with
  | nil =>
    simp only [List.nil_append, splitChar]
    cases hb : splitChar sep b with
    | nil => exact absurd hb (splitChar_ne_nil sep b)
    | cons p ps => simp [splitChar]
  | cons c a ih =>
    simp only [List.cons_append, splitChar, List.append_eq]
    rw [ih]
    cases ha : splitChar sep a with
    | nil => exact absurd ha (splitChar_ne_nil sep a)
    | cons p ps => by_cases hc : c = sep <;> simp [hc]

theorem splitWs_append (a b : List Char) :
    splitWs (a ++ ' ' :: b) = splitWs a ++ splitWs b := by
  unfold splitWs
  rw [splitChar_append, List.filter_append]

theorem splitWs_single (a : List Char) (h0 : a ≠ []) (h : ' ' ∉ a) :
    splitWs a = [a] := by
  unfold splitWs
  rw [splitChar_no_sep ' ' a h]
  simp [h0]

theorem digitsRevFuel_ne_nil (b n : Nat) (h0 : n ≠ 0) : digitsRevFuel b n n ≠ [] := by
  cases n with
  | zero => exact absurd rfl h0
  | succ m => simp [digitsRevFuel]

theorem parseNat_natStr (b : Nat) (hb : 2 ≤ b) (hb16 : b ≤ 16) (n : Nat) :
    parseNat b (natStr b n) = some n := by
  by_cases h0 : n = 0
  · subst h0
    have h1 : (0 : Nat) < b := by omega
    simp [natStr, parseNat, parseNatGo, digitVal, h1]
  · have hspec := digitsRevFuel_spec b hb n n (le_refl n)
    have hmem : ∀ d ∈ (digitsRevFuel b n n).reverse, d < b := by
      intro d hd
      exact hspec.2 d (List.mem_reverse.mp hd)
    have hne : List.map digitChar (digitsRevFuel b n n).reverse ≠ [] := by
      simp only [ne_eq, List.map_eq_nil_iff, List.reverse_eq_nil_iff]
      exact digitsRevFuel_ne_nil b n h0
    simp only [natStr, if_neg h0, natDigits, parseNat, if_neg hne]
    rw [parseNatGo_digits b hb16 _ 0 hmem]
    rw [foldl_reverse_ofDigitsRev b (digitsRevFuel b n n) 0]
    simp [hspec.1]


theorem digitChar_range (d : Nat) (hd : d < 16) :
    (48 ≤ (digitChar d).toNat ∧ (digitChar d).toNat ≤ 57) ∨
      (97 ≤ (digitChar d).toNat ∧ (digitChar d).toNat ≤ 102) := by
  interval_cases d <;> decide

theorem natStr_range (b : Nat) (hb : 2 ≤ b) (hb16 : b ≤ 16) (n : Nat) :
    ∀ c ∈ natStr b n,
      (48 ≤ c.toNat ∧ c.toNat ≤ 57) ∨ (97 ≤ c.toNat ∧ c.toNat ≤ 102) := by
  intro c hc
  by_cases h0 : n = 0
  · subst h0
    simp only [natStr, if_true, List.mem_singleton] at hc
    subst hc; decide
  · simp only [natStr, if_neg h0, natDigits, List.mem_map, List.mem_reverse] at hc
    obtain ⟨d, hd, hdc⟩ := hc
    have := (digitsRevFuel_spec b hb n n (le_refl n)).2 d hd
    exact hdc ▸ digitChar_range d (lt_of_lt_of_le this hb16)

theorem natStr10_digit (n : Nat) :
    ∀ c ∈ natStr 10 n, 48 ≤ c.toNat ∧ c.toNat ≤ 57 := by
  intro c hc
  by_cases h0 : n = 0
  · subst h0
    simp only [natStr, if_true, List.mem_singleton] at hc
    subst hc; decide
  · simp only [natStr, if_neg h0, natDigits, List.mem_map, List.mem_reverse] at hc
    obtain ⟨d, hd, hdc⟩ := hc
    have hdlt := (digitsRevFuel_spec 10 (by omega) n n (le_refl n)).2 d hd
    subst hdc
    interval_cases d <;> decide

theorem decPad_digit (w n : Nat) :
    ∀ c ∈ decPad w n, 48 ≤ c.toNat ∧ c.toNat ≤ 57 := by
  intro c hc
  simp only [decPad, padLeft, List.mem_append, List.mem_replicate] at hc
  rcases hc with ⟨_, h⟩ | h
  · subst h; decide
  · exact natStr10_digit n c h

theorem parseNatGo_zeros (b : Nat) (hb : 0 < b) (k : Nat) (cs : List Char) :
    parseNatGo b 0 (List.replicate k '0' ++ cs) = parseNatGo b 0 cs := by
  induction k with
  | zero => simp
  | succ k ih =>
    have h0 : digitVal '0' = some 0 := by decide
    simp only [List.replicate_succ, List.cons_append, parseNatGo, h0, if_pos hb]
    simpa using ih

theorem parseNat_padLeft (b : Nat) (hb : 2 ≤ b) (hb16 : b ≤ 16) (w n : Nat) :
    parseNat b (padLeft w (natStr b n)) = some n := by
  have hstr := parseNat_natStr b hb hb16 n
  have hne : natStr b n ≠ [] := by
    intro h
    rw [parseNat, if_pos h] at hstr
    exact Option.noConfusion hstr
  have hne2 : padLeft w (natStr b n) ≠ [] := by
    unfold padLeft
    intro h
    exact hne (List.append_eq_nil.mp h).2
  simp only [padLeft] at hne2 ⊢
  simp only [parseNat, if_neg hne2]
  rw [parseNatGo_zeros b (by omega)]
  simp only [parseNat, if_neg hne] at hstr
  exact hstr

theorem digitsRevFuel_length_le (b : Nat) (hb : 2 ≤ b) :
    ∀ f n k, n < b ^ k → (digitsRevFuel b f n).length ≤ k := by
  intro f
  induction f with
  | zero => intro n k _; simp [digitsRevFuel]
  | succ f ih =>
    intro n k hk
    by_cases h0 : n = 0
    · subst h0; simp [digitsRevFuel]
    · cases k with
      | zero =>
        simp only [pow_zero, Nat.lt_one_iff] at hk
        exact absurd hk h0
      | succ k =>
        simp only [digitsRevFuel, if_neg h0, List.length_cons]
        have : n / b < b ^ k := by
          rw [Nat.div_lt_iff_lt_mul (by omega)]
          calc n < b ^ (k + 1) := hk
          _ = b ^ k * b := by ring
        exact Nat.succ_le_succ (ih (n / b) k this)

theorem natStr_length_le (b : Nat) (hb : 2 ≤ b) (n k : Nat) (hk : n < b ^ k)
    (hk1 : 1 ≤ k) : (natStr b n).length ≤ k := by
  by_cases h0 : n = 0
  · subst h0; simpa [natStr] using hk1
  · simp only [natStr, if_neg h0, natDigits, List.length_map, List.length_reverse]
    exact digitsRevFuel_length_le b hb n n k hk

theorem padLeft_length (w : Nat) (cs : List Char) (h : cs.length ≤ w) :
    (padLeft w cs).length = w := by
  simp only [padLeft, List.length_append, List.length_replicate]
  omega

theorem parseNormal_normalChars (t : Timestamp) :
    parseNormal t.normalChars = some t.raw := by
  have hip : '.' ∉ decPad 10 (t.raw / 100000) := by
    intro h
    have := decPad_digit 10 (t.raw / 100000) '.' h
    revert this; decide
  unfold Timestamp.normalChars parseNormal
  rw [splitOnce_append '.' _ _ hip]
  have h1 : parseNat 10 (decPad 10 (t.raw / 100000)) = some (t.raw / 100000) :=
    parseNat_padLeft 10 (by omega) (by omega) 10 (t.raw / 100000)
  have h2 : parseNat 10 (decPad 5 (t.raw % 100000)) = some (t.raw % 100000) :=
    parseNat_padLeft 10 (by omega) (by omega) 5 (t.raw % 100000)
  have hlen : (decPad 5 (t.raw % 100000)).length = 5 := by
    apply padLeft_length
    apply natStr_length_le 10 (by omega) _ 5 _ (by omega)
    calc t.raw % 100000 < 100000 := Nat.mod_lt _ (by omega)
    _ = 10 ^ 5 := by norm_num
  simp only [h1, h2, hlen]
  norm_num
  omega

theorem normalChars_no_underscore (t : Timestamp) : '_' ∉ t.normalChars := by
  intro h
  simp only [Timestamp.normalChars, List.mem_append, List.mem_cons] at h
  rcases h with h | h | h
  · have := decPad_digit 10 (t.raw / 100000) '_' h; revert this; decide
  · revert h; decide
  · have := decPad_digit 5 (t.raw % 100000) '_' h; revert this; decide

theorem parseInternal_internalChars (t : Timestamp) :
    parseInternal t.internalChars = some t := by
  unfold Timestamp.internalChars parseInternal
  by_cases ho : t.offset = 0
  · simp only [if_pos ho, List.append_nil,
      splitOnce_not_mem '_' t.normalChars (normalChars_no_underscore t),
      parseNormal_normalChars t, Option.map_some]
    cases t with
    | mk r o => simp_all
  · simp only [if_neg ho, splitOnce_append '_' _ _ (normalChars_no_underscore t),
      parseNormal_normalChars t, parseNat_padLeft 16 (by omega) (by omega) 16 t.offset]

theorem natStr_ne_nil (b n : Nat) : natStr b n ≠ [] := by
  by_cases h0 : n = 0
  · subst h0; simp [natStr]
  · intro h
    simp only [natStr, if_neg h0, natDigits, List.map_eq_nil_iff,
      List.reverse_eq_nil_iff] at h
    exact digitsRevFuel_ne_nil b n h0 h

theorem natStr16_no_underscore (n : Nat) : '_' ∉ natStr 16 n := by
  intro h
  have := natStr_range 16 (by omega) (by omega) n '_' h
  revert this; decide

theorem partitionDunder_no_underscore (cs : List Char) (h : '_' ∉ cs) :
    partitionDunder cs = (cs, none) := by
  induction cs with
  | nil => rfl
  | cons c tail ih =>
    have hc : c ≠ '_' := fun hc => h (hc ▸ List.mem_cons_self c tail)
    have ht : '_' ∉ tail := fun hm => h (List.mem_cons_of_mem c hm)
    cases tail with
    | nil => rfl
    | cons d rest =>
      have : ¬(c = '_' ∧ d = '_') := fun ⟨h1, _⟩ => hc h1
      simp only [partitionDunder, if_neg this]
      rw [ih ht]

theorem partitionDunder_append (a b : List Char) (h : '_' ∉ a) :
    partitionDunder (a ++ '_' :: '_' :: b) = (a, some b) := by
  induction a with
  | nil => simp [partitionDunder]
  | cons c tail ih =>
    have hc : c ≠ '_' := fun hc => h (hc ▸ List.mem_cons_self c tail)
    have ht : '_' ∉ tail := fun hm => h (List.mem_cons_of_mem c hm)
    cases tail with
    | nil =>
      have : ¬(c = '_' ∧ '_' = '_') := fun ⟨h1, _⟩ => hc h1
      simp only [List.cons_append, List.nil_append, partitionDunder, if_neg this]
      simp [partitionDunder, hc]
    | cons d rest =>
      have : ¬(c = '_' ∧ d = '_') := fun ⟨h1, _⟩ => hc h1
      simp only [List.cons_append] at ih ⊢
      simp only [partitionDunder, if_neg this]
      rw [ih ht]

theorem parseDeltaOffset_dunderVal (d o : Nat) :
    parseDeltaOffset (dunderVal d o) = some (d, o) := by
  have hx := parseNat_natStr 16 (by omega) (by omega) d
  by_cases ho : o = 0
  · subst ho
    simp only [dunderVal, if_true, List.append_nil, parseDeltaOffset,
      partitionDunder_no_underscore _ (natStr16_no_underscore d), hx]
  · simp only [dunderVal, if_neg ho, parseDeltaOffset,
      partitionDunder_append _ _ (natStr16_no_underscore d), hx,
      if_neg (natStr_ne_nil 16 o), parseNat_natStr 16 (by omega) (by omega) o]
    rfl

theorem dunderVal_range (d o : Nat) (c : Char) (hc : c ∈ dunderVal d o) :
    (48 ≤ c.toNat ∧ c.toNat ≤ 57) ∨ (97 ≤ c.toNat ∧ c.toNat ≤ 102) ∨ c = '_' := by
  simp only [dunderVal, List.mem_append] at hc
  rcases hc with h | h
  · rcases natStr_range 16 (by omega) (by omega) d c h with h | h
    · exact Or.inl h
    · exact Or.inr (Or.inl h)
  · by_cases ho : o = 0
    · simp [ho] at h
    · simp only [if_neg ho, List.mem_cons] at h
      rcases h with h | h | h
      · exact Or.inr (Or.inr h)
      · exact Or.inr (Or.inr h)
      · rcases natStr_range 16 (by omega) (by omega) o c h with h2 | h2
        · exact Or.inl h2
        · exact Or.inr (Or.inl h2)

theorem mtItem_no_comma (k : Char) (hk : k ≠ ',') (d o : Nat) :
    ',' ∉ k :: ':' :: dunderVal d o := by
  intro h
  simp only [List.mem_cons] at h
  rcases h with h | h | h
  · exact hk h.symm
  · revert h; decide
  · rcases dunderVal_range d o ',' h with h2 | h2 | h2 <;> revert h2 <;> decide

theorem mtItem_no_space (k : Char) (hk : k ≠ ' ') (d o : Nat) :
    ' ' ∉ k :: ':' :: dunderVal d o := by
  intro h
  simp only [List.mem_cons] at h
  rcases h with h | h | h
  · exact hk h.symm
  · revert h; decide
  · rcases dunderVal_range d o ' ' h with h2 | h2 | h2 <;> revert h2 <;> decide

theorem dunderVal_no_colon (d o : Nat) : ':' ∉ dunderVal d o := by
  intro h
  rcases dunderVal_range d o ':' h with h2 | h2 | h2 <;> revert h2 <;> decide

theorem applySubpart_mt (td : Timestamp) (r : MissingRec) (k : Char)
    (hk : k ≠ ':') (d o : Nat) :
    applySubpart td r (k :: ':' :: dunderVal d o) =
      (if [k] = "m".toList then
        some { r with ts_meta := ⟨td.raw + d, o⟩ }
      else if [k] = "t".toList then
        some { r with ts_ctype := ⟨td.raw + d, o⟩ }
      else if [k] = "durable".toList then
        some { r with durable := configTrueValue (dunderVal d o) }
      else some r) := by
  have hsplit : splitChar ':' (k :: ':' :: dunderVal d o) =
      [[k], dunderVal d o] := by
    have : (k :: ':' :: dunderVal d o) = [k] ++ ':' :: dunderVal d o := rfl
    have hknc : ':' ∉ [k] := by
      simp only [List.mem_singleton]
      exact fun h => hk h.symm
    rw [this, splitChar_append, splitChar_no_sep ':' [k] hknc,
      splitChar_no_sep ':' _ (dunderVal_no_colon d o)]
    rfl
  simp only [applySubpart, hsplit, parseDeltaOffset_dunderVal]
  by_cases h1 : [k] = "m".toList
  · simp [h1]
  · by_cases h2 : [k] = "t".toList
    · simp [h1, h2]
    · by_cases h3 : [k] = "durable".toList
      · simp [h1, h2, h3]
      · simp [h1, h2, h3]

theorem intercalate_single (sep : Char) (p : List Char) :
    List.intercalate [sep] [p] = p := by
  simp [List.intercalate, List.intersperse]

theorem intercalate_cons_two (sep : Char) (p q : List Char) (rest : List (List Char)) :
    List.intercalate [sep] (p :: q :: rest) =
      p ++ sep :: List.intercalate [sep] (q :: rest) := by
  simp [List.intercalate, List.intersperse]

theorem splitChar_intercalate (sep : Char) :
    ∀ parts : List (List Char), parts ≠ [] → (∀ p ∈ parts, sep ∉ p) →
      splitChar sep (List.intercalate [sep] parts) = parts := by
  intro parts
  induction parts with
  | nil => intro h; exact absurd rfl h
  | cons p rest ih =>
    intro _ hall
    cases rest with
    | nil =>
      rw [intercalate_single]
      exact splitChar_no_sep sep p (hall p (List.mem_cons_self p []))
    | cons q rest2 =>
      rw [intercalate_cons_two, splitChar_append,
        splitChar_no_sep sep p (hall p (List.mem_cons_self p _)),
        ih (by simp) (fun x hx => hall x (List.mem_cons_of_mem p hx))]
      rfl

theorem mem_intercalate (sep : Char) :
    ∀ (parts : List (List Char)) (c : Char), c ∈ List.intercalate [sep] parts →
      c = sep ∨ ∃ p ∈ parts, c ∈ p := by
  intro parts
  induction parts with
  | nil => intro c hc; simp [List.intercalate, List.intersperse] at hc
  | cons p rest ih =>
    intro c hc
    cases rest with
    | nil =>
      rw [intercalate_single] at hc
      exact Or.inr ⟨p, List.mem_cons_self p [], hc⟩
    | cons q rest2 =>
      rw [intercalate_cons_two] at hc
      simp only [List.mem_append, List.mem_cons] at hc
      rcases hc with hc | hc | hc
      · exact Or.inr ⟨p, List.mem_cons_self p _, hc⟩
      · exact Or.inl hc
      · rcases ih c hc with h | ⟨x, hx, hcx⟩
        · exact Or.inl h
        · exact Or.inr ⟨x, List.mem_cons_of_mem p hx, hcx⟩

theorem intercalate_ne_nil (sep : Char) (p : List Char) (rest : List (List Char))
    (hp : p ≠ []) : List.intercalate [sep] (p :: rest) ≠ [] := by
  cases rest with
  | nil => rw [intercalate_single]; exact hp
  | cons q rest2 =>
    rw [intercalate_cons_two]
    intro h
    rcases List.append_eq_nil.mp h with ⟨h1, _⟩
    exact hp h1

theorem padLeft_mem (w : Nat) (cs : List Char) (c : Char) (hc : c ∈ padLeft w cs) :
    c = '0' ∨ c ∈ cs := by
  simp only [padLeft, List.mem_append, List.mem_replicate] at hc
  rcases hc with ⟨_, h⟩ | h
  · exact Or.inl h
  · exact Or.inr h

theorem internalChars_range (t : Timestamp) (c : Char) (hc : c ∈ t.internalChars) :
    (48 ≤ c.toNat ∧ c.toNat ≤ 57) ∨ (97 ≤ c.toNat ∧ c.toNat ≤ 102) ∨
      c = '.' ∨ c = '_' := by
  simp only [Timestamp.internalChars, List.mem_append] at hc
  rcases hc with hc | hc
  · simp only [Timestamp.normalChars, List.mem_append, List.mem_cons] at hc
    rcases hc with h | h | h
    · exact Or.inl (decPad_digit _ _ c h)
    · exact Or.inr (Or.inr (Or.inl h))
    · exact Or.inl (decPad_digit _ _ c h)
  · by_cases ho : t.offset = 0
    · simp [ho] at hc
    · simp only [if_neg ho, List.mem_cons] at hc
      rcases hc with h | h
      · exact Or.inr (Or.inr (Or.inr h))
      · rcases padLeft_mem _ _ c h with h2 | h2
        · subst h2; exact Or.inl (by decide)
        · rcases natStr_range 16 (by omega) (by omega) t.offset c h2 with h3 | h3
          · exact Or.inl h3
          · exact Or.inr (Or.inl h3)

theorem internalChars_no_space (t : Timestamp) : ' ' ∉ t.internalChars := by
  intro h
  rcases internalChars_range t ' ' h with h2 | h2 | h2 | h2 <;> revert h2 <;> decide

theorem internalChars_ne_nil (t : Timestamp) : t.internalChars ≠ [] := by
  simp only [Timestamp.internalChars, Timestamp.normalChars]
  intro h
  rcases List.append_eq_nil.mp h with ⟨h1, _⟩
  rcases List.append_eq_nil.mp h1 with ⟨_, h3⟩
  exact List.noConfusion h3

/-- Decoding a bare `<hash> <ts_data>` line. -/
theorem decode_base (hash : List Char) (td : Timestamp)
    (hne : hash ≠ []) (hsp : ' ' ∉ hash) :
    decode_missing (hash ++ ' ' :: td.internalChars) =
      some ⟨hash, td, td, td, true⟩ := by
  have hsplit : splitWs (hash ++ ' ' :: td.internalChars) =
      [hash, td.internalChars] := by
    rw [splitWs_append, splitWs_single hash hne hsp,
      splitWs_single td.internalChars (internalChars_ne_nil td)
        (internalChars_no_space td)]
    rfl
  simp only [decode_missing, hsplit, parseInternal_internalChars td]

/-- Decoding a `<hash> <ts_data> <subpart-list>` line reduces to folding the
subparts. -/
theorem decode_base_subs (hash : List Char) (td : Timestamp) (sub : List Char)
    (hne : hash ≠ []) (hsp : ' ' ∉ hash)
    (hsubne : sub ≠ []) (hsubsp : ' ' ∉ sub) :
    decode_missing ((hash ++ ' ' :: td.internalChars) ++ ' ' :: sub) =
      decodeSubs td ⟨hash, td, td, td, true⟩ sub := by
  have hsplit : splitWs ((hash ++ ' ' :: td.internalChars) ++ ' ' :: sub) =
      [hash, td.internalChars, sub] := by
    rw [splitWs_append, splitWs_append, splitWs_single hash hne hsp,
      splitWs_single td.internalChars (internalChars_ne_nil td)
        (internalChars_no_space td),
      splitWs_single sub hsubne hsubsp]
    rfl
  simp only [decode_missing, hsplit, parseInternal_internalChars td]

theorem applySubpart_m_eq (td : Timestamp) (tm : Timestamp) (r : MissingRec)
    (hraw : td.raw ≤ tm.raw) :
    applySubpart td r ('m' :: ':' :: dunderVal (tm.raw - td.raw) tm.offset) =
      some { r with ts_meta := tm } := by
  rw [applySubpart_mt td r 'm' (by decide)]
  have heq : td.raw + (tm.raw - td.raw) = tm.raw := by omega
  rw [if_pos (show (['m'] : List Char) = "m".toList from rfl), heq]

theorem applySubpart_t_eq (td : Timestamp) (tc : Timestamp) (r : MissingRec)
    (hraw : td.raw ≤ tc.raw) :
    applySubpart td r ('t' :: ':' :: dunderVal (tc.raw - td.raw) tc.offset) =
      some { r with ts_ctype := tc } := by
  rw [applySubpart_mt td r 't' (by decide)]
  have heq : td.raw + (tc.raw - td.raw) = tc.raw := by omega
  have hnm : ¬(['t'] = "m".toList) := by decide
  rw [if_neg hnm, if_pos (show (['t'] : List Char) = "t".toList from rfl), heq]

theorem mem_colon_mt (k : Char) (d o : Nat) : ':' ∈ k :: ':' :: dunderVal d o := by
  simp

/-- C8: `decode_missing (encode_missing x) = x` for every well-formed
tuple `x` over `(object_hash, ts_data, ts_meta, ts_ctype, durable)` with
`ts_data ≤ ts_ctype ≤ ts_meta` (lexicographic on value and offset), the
hash nonempty and space-free.  The universal quantification covers zero
meta/content-type deltas, non-zero offsets on any of the timestamps, and
both durabilities; an absent durable subpart decodes to `durable = true`
by the `r0` default of `decode_missing`. -/
theorem c8_decode_encode_roundtrip (hash : List Char) (td tm tc : Timestamp) (dur : Bool)
    (hne : hash ≠ []) (hsp : ' ' ∉ hash)
    (h1 : Timestamp.le td tc) (h2 : Timestamp.le tc tm) :
    decode_missing (encode_missing hash td tm tc dur) =
      some ⟨hash, td, tm, tc, dur⟩ := by
  have hrawc : td.raw ≤ tc.raw := by
    rcases h1 with h | ⟨h, _⟩ <;> omega
  have hrawm : td.raw ≤ tm.raw := by
    rcases h2 with h | ⟨h, h2o⟩
    · omega
    · rcases h1 with h1 | ⟨h1, _⟩ <;> omega
  set mI : List Char := 'm' :: ':' :: dunderVal (tm.raw - td.raw) tm.offset with hmI
  set tI : List Char := 't' :: ':' :: dunderVal (tc.raw - td.raw) tc.offset with htI
  set dI : List Char := "durable:no".toList with hdI
  have hmI_sp : ' ' ∉ mI := mtItem_no_space 'm' (by decide) _ _
  have htI_sp : ' ' ∉ tI := mtItem_no_space 't' (by decide) _ _
  have hmI_cm : ',' ∉ mI := mtItem_no_comma 'm' (by decide) _ _
  have htI_cm : ',' ∉ tI := mtItem_no_comma 't' (by decide) _ _
  have hdI_sp : ' ' ∉ dI := by decide
  have hdI_cm : ',' ∉ dI := by decide
  have hmem_m : ':' ∈ mI := mem_colon_mt 'm' _ _
  have hmem_t : ':' ∈ tI := mem_colon_mt 't' _ _
  have hmem_d : ':' ∈ dI := by decide
  have hstep_m : ∀ r : MissingRec,
      (if ':' ∈ mI then applySubpart td r mI else some r) =
        some { r with ts_meta := tm } := fun r => by
    rw [if_pos hmem_m, hmI, applySubpart_m_eq td tm r hrawm]
  have hstep_t : ∀ r : MissingRec,
      (if ':' ∈ tI then applySubpart td r tI else some r) =
        some { r with ts_ctype := tc } := fun r => by
    rw [if_pos hmem_t, htI, applySubpart_t_eq td tc r hrawc]
  have hstep_d : ∀ r : MissingRec,
      (if ':' ∈ dI then applySubpart td r dI else some r) =
        some { r with durable := false } := fun r => by
    rw [if_pos hmem_d]; rfl
  simp only [encode_missing, ← hmI, ← htI, ← hdI]
  by_cases hm : tm = td <;> by_cases hc : tc = td <;> cases dur
  · -- tm = td, tc = td, durable = false : sub = dI
    rw [if_pos hm, if_pos hc]
    simp only [List.nil_append, Bool.false_eq_true, if_false,
      if_neg (by simp : ¬([dI] = [])), intercalate_single]
    rw [decode_base_subs hash td dI hne hsp (by decide) hdI_sp]
    simp only [decodeSubs, splitChar_no_sep ',' dI hdI_cm, List.foldlM_cons,
      List.foldlM_nil, hstep_d, Option.bind_some, Option.pure_def]
    rw [hm, hc]
    rfl
  · -- tm = td, tc = td, durable = true : bare line
    rw [if_pos hm, if_pos hc]
    simp only [List.nil_append, if_true, if_pos rfl]
    rw [decode_base hash td hne hsp, hm, hc]
  · -- tm = td, tc ≠ td, durable = false : sub = tI,dI
    rw [if_pos hm, if_neg hc]
    simp only [List.nil_append, Bool.false_eq_true, if_false,
      if_neg (by simp : ¬([tI, dI] = [])), List.singleton_append,
      intercalate_cons_two, intercalate_single]
    have hsub_sp : ' ' ∉ tI ++ ',' :: dI := by
      intro h
      rcases List.mem_append.mp h with h | h
      · exact htI_sp h
      · rcases List.mem_cons.mp h with h | h
        · revert h; decide
        · exact hdI_sp h
    rw [decode_base_subs hash td _ hne hsp (by simp) hsub_sp]
    simp only [decodeSubs, splitChar_append, splitChar_no_sep ',' tI htI_cm,
      splitChar_no_sep ',' dI hdI_cm, List.singleton_append, List.foldlM_cons,
      List.foldlM_nil, hstep_t, hstep_d, Option.bind_some, Option.pure_def]
    rw [hm]
    rfl
  · -- tm = td, tc ≠ td, durable = true : sub = tI
    rw [if_pos hm, if_neg hc]
    simp only [List.nil_append, List.append_nil, if_true,
      if_neg (by simp : ¬([tI] = [])), intercalate_single]
    rw [decode_base_subs hash td tI hne hsp (by simp) htI_sp]
    simp only [decodeSubs, splitChar_no_sep ',' tI htI_cm, List.foldlM_cons,
      List.foldlM_nil, hstep_t, Option.bind_some, Option.pure_def]
    rw [hm]
    rfl
  · -- tm ≠ td, tc = td, durable = false : sub = mI,dI
    rw [if_neg hm, if_pos hc]
    simp only [List.nil_append, Bool.false_eq_true, if_false,
      if_neg (by simp : ¬([mI, dI] = [])), List.singleton_append,
      intercalate_cons_two, intercalate_single]
    have hsub_sp : ' ' ∉ mI ++ ',' :: dI := by
      intro h
      rcases List.mem_append.mp h with h | h
      · exact hmI_sp h
      · rcases List.mem_cons.mp h with h | h
        · revert h; decide
        · exact hdI_sp h
    rw [decode_base_subs hash td _ hne hsp (by simp) hsub_sp]
    simp only [decodeSubs, splitChar_append, splitChar_no_sep ',' mI hmI_cm,
      splitChar_no_sep ',' dI hdI_cm, List.singleton_append, List.foldlM_cons,
      List.foldlM_nil, hstep_m, hstep_d, Option.bind_some, Option.pure_def]
    rw [hc]
    rfl
  · -- tm ≠ td, tc = td, durable = true : sub = mI
    rw [if_neg hm, if_pos hc]
    simp only [List.nil_append, List.append_nil, if_true,
      if_neg (by simp : ¬([mI] = [])), intercalate_single]
    rw [decode_base_subs hash td mI hne hsp (by simp) hmI_sp]
    simp only [decodeSubs, splitChar_no_sep ',' mI hmI_cm, List.foldlM_cons,
      List.foldlM_nil, hstep_m, Option.bind_some, Option.pure_def]
    rw [hc]
    rfl
  · -- tm ≠ td, tc ≠ td, durable = false : sub = mI,tI,dI
    rw [if_neg hm, if_neg hc]
    simp only [Bool.false_eq_true, if_false,
      if_neg (by simp : ¬([mI, tI, dI] = [])), List.singleton_append,
      List.cons_append, List.nil_append,
      intercalate_cons_two, intercalate_single]
    have hsub_sp : ' ' ∉ mI ++ ',' :: (tI ++ ',' :: dI) := by
      intro h
      rcases List.mem_append.mp h with h | h
      · exact hmI_sp h
      · rcases List.mem_cons.mp h with h | h
        · revert h; decide
        · rcases List.mem_append.mp h with h | h
          · exact htI_sp h
          · rcases List.mem_cons.mp h with h | h
            · revert h; decide
            · exact hdI_sp h
    rw [decode_base_subs hash td _ hne hsp (by simp) hsub_sp]
    simp only [decodeSubs, splitChar_append, splitChar_no_sep ',' mI hmI_cm,
      splitChar_no_sep ',' tI htI_cm, splitChar_no_sep ',' dI hdI_cm,
      List.singleton_append, List.foldlM_cons, List.foldlM_nil,
      hstep_m, hstep_t, hstep_d, Option.bind_some, Option.pure_def]
    rfl
  · -- tm ≠ td, tc ≠ td, durable = true : sub = mI,tI
    rw [if_neg hm, if_neg hc]
    simp only [List.append_nil, if_true,
      if_neg (by simp : ¬([mI, tI] = [])), List.singleton_append,
      intercalate_cons_two, intercalate_single]
    have hsub_sp : ' ' ∉ mI ++ ',' :: tI := by
      intro h
      rcases List.mem_append.mp h with h | h
      · exact hmI_sp h
      · rcases List.mem_cons.mp h with h | h
        · revert h; decide
        · exact htI_sp h
    rw [decode_base_subs hash td _ hne hsp (by simp) hsub_sp]
    simp only [decodeSubs, splitChar_append, splitChar_no_sep ',' mI hmI_cm,
      splitChar_no_sep ',' tI htI_cm, List.singleton_append, List.foldlM_cons,
      List.foldlM_nil, hstep_m, hstep_t, Option.bind_some, Option.pure_def]
    rfl

theorem stripWs_space (cs : List Char) : stripWs (' ' :: cs) = stripWs cs := by
  simp only [stripWs, List.dropWhile_cons_of_pos (by decide : isWsChar ' ' = true)]

theorem isWsChar_eq_false (c : Char)
    (h : c ≠ ' ' ∧ c ≠ '\r' ∧ c ≠ '\n' ∧ c ≠ '\t') : isWsChar c = false := by
  simp [isWsChar, h.1, h.2.1, h.2.2.1, h.2.2.2]

theorem digit_ne_ws (c : Char) (h : 48 ≤ c.toNat ∧ c.toNat ≤ 57) :
    isWsChar c = false := by
  apply isWsChar_eq_false
  refine ⟨?_, ?_, ?_, ?_⟩ <;> intro he <;> subst he <;> revert h <;> decide

/-- One header line `nm: val` followed by the blank line: the header block
parser records the lowercased name and the value, consumes through the
blank line, and parses a declared content-length. -/
theorem parseHdrs_single_header (nm val tail : List Char)
    (acc : List (List Char × List Char)) (cl : Option Nat)
    (hnm_ne : nm ≠ []) (hnm_colon : ':' ∉ nm) (hnm_nl : '\n' ∉ nm)
    (hnm_head : ∀ h : nm ≠ [], isWsChar (nm.head h) = false)
    (hval_ne : val ≠ []) (hval_ws : ∀ c ∈ val, isWsChar c = false) :
    parseHdrs ((nm ++ ':' :: ' ' :: (val ++ '\r' :: '\n' :: '\r' :: '\n' :: tail)).length + 1)
        (nm ++ ':' :: ' ' :: (val ++ '\r' :: '\n' :: '\r' :: '\n' :: tail)) acc cl =
      (if (stripWs nm).map Char.toLower = "content-length".toList then
        match parseNat 10 val with
        | some n => .ok (((stripWs nm).map Char.toLower, val) :: acc).reverse (some n) tail
        | none => .errBadCL val
      else .ok (((stripWs nm).map Char.toLower, val) :: acc).reverse cl tail) := by
  obtain ⟨c0, nmt, rfl⟩ : ∃ c0 nmt, nm = c0 :: nmt := by
    cases nm with
    | nil => exact absurd rfl hnm_ne
    | cons a b => exact ⟨a, b, rfl⟩
  obtain ⟨vd, vz, rfl⟩ : ∃ vd vz, val = vd ++ [vz] := by
    rcases List.eq_nil_or_concat val with h | ⟨l, a, h⟩
    · exact absurd h hval_ne
    · exact ⟨l, a, by simpa [List.concat_eq_append] using h⟩
  have hval_nl : '\n' ∉ vd ++ [vz] := by
    intro h
    have := hval_ws '\n' h
    revert this; decide
  have hc0 : isWsChar c0 = false := hnm_head (by simp)
  have hvz : isWsChar vz = false := hval_ws vz (by simp)
  have hcs_ne : (c0 :: nmt) ++ ':' :: ' ' :: ((vd ++ [vz]) ++ '\r' :: '\n' :: '\r' :: '\n' :: tail) ≠
      ([] : List Char) := by simp
  have hshape : (c0 :: nmt) ++ ':' :: ' ' :: ((vd ++ [vz]) ++ '\r' :: '\n' :: '\r' :: '\n' :: tail) =
      (c0 :: (nmt ++ ':' :: ' ' :: ((vd ++ [vz]) ++ ['\r']))) ++
        '\n' :: ('\r' :: '\n' :: tail) := by simp
  have hnoNL : '\n' ∉ c0 :: (nmt ++ ':' :: ' ' :: ((vd ++ [vz]) ++ ['\r'])) := by
    intro h
    rcases List.mem_cons.mp h with h | h
    · rw [← h] at hc0; exact absurd hc0 (by decide)
    · rcases List.mem_append.mp h with h | h
      · exact hnm_nl (List.mem_cons_of_mem c0 h)
      · rcases List.mem_cons.mp h with h | h
        · revert h; decide
        · rcases List.mem_cons.mp h with h | h
          · revert h; decide
          · rcases List.mem_append.mp h with h | h
            · exact hval_nl h
            · revert h; decide
  have hr : readLine (('\r' : Char) :: '\n' :: tail) = (['\r'], tail) := by
    rw [show (('\r' : Char) :: '\n' :: tail) = ['\r'] ++ '\n' :: tail from rfl]
    exact readLine_append ['\r'] tail (by decide)
  have hAshape : c0 :: (nmt ++ ':' :: ' ' :: ((vd ++ [vz]) ++ ['\r'])) =
      c0 :: (((nmt ++ ':' :: ' ' :: vd) ++ [vz]) ++ ['\r']) := by simp
  simp only [parseHdrs, if_neg hcs_ne]
  rw [hshape, readLine_append _ _ hnoNL]
  simp only
  rw [hAshape, stripWs_line c0 (nmt ++ ':' :: ' ' :: vd) vz hc0 hvz]
  have hl2 : c0 :: ((nmt ++ ':' :: ' ' :: vd) ++ [vz]) =
      (c0 :: nmt) ++ ':' :: (' ' :: (vd ++ [vz])) := by simp
  rw [hl2]
  have hlne : ¬((c0 :: nmt) ++ ':' :: (' ' :: (vd ++ [vz])) = []) := by simp
  rw [if_neg hlne, splitOnce_append ':' (c0 :: nmt) _ hnm_colon]
  simp only
  rw [stripWs_space, stripWs_eq_self (vd ++ [vz]) hval_ws]
  by_cases hcl : (stripWs (c0 :: nmt)).map Char.toLower = "content-length".toList
  · rw [if_pos hcl, if_pos hcl]
    cases hpn : parseNat 10 (vd ++ [vz]) with
    | none => rfl
    | some n =>
      simp [hr, show stripWs ['\r'] = ([] : List Char) from rfl, parseHdrs]
  · rw [if_neg hcl, if_neg hcl]
    simp [hr, show stripWs ['\r'] = ([] : List Char) from rfl, parseHdrs]

/-- C3: a sub-request declaring `Content-Length` `n` consumes exactly `n`
body bytes from the stream before the next sub-request is parsed — the
loop resumes exactly on `rest` — for every body of length `n` (bodies
containing CRLF sequences included, since `body` is arbitrary), for every
dispatch outcome and every number of bytes the handler itself reads (the
oracle), whether the outcome is counted as a success or a failure. -/
theorem c3_put_body_consumed_exactly (ctx : RxCtx) (oracle : Nat → Bool × Nat)
    (fuel s f k : Nat) (acc : List SubReq) (path : List Char) (n : Nat)
    (body rest : List Char)
    (hp_ne : path ≠ []) (hp_ws : ∀ c ∈ path, isWsChar c = false)
    (hb : body.length = n) :
    updLoop ctx oracle (fuel + 1) (putWire path n ++ body ++ rest) s f k acc =
      (let oc := oracle k
       let req : SubReq := ⟨"PUT".toList, path,
         [("content-length".toList, natStr 10 n)], some n, body,
         body.take oc.2, oc.1⟩
       let s1 := if oc.1 then s + 1 else s
       let f1 := if oc.1 then f else f + 1
       if abortCond ctx.failureThreshold ctx.failureRatioQ f1 s1 then
         UpdRes.aborted f1 s1 (req :: acc).reverse
       else updLoop ctx oracle fuel rest s1 f1 (k + 1) (req :: acc)) := by
  have hp_nl : '\n' ∉ path := by
    intro h
    have := hp_ws '\n' h
    revert this; decide
  obtain ⟨pd, pz, hpath⟩ : ∃ pd pz, path = pd ++ [pz] := by
    rcases List.eq_nil_or_concat path with h | ⟨l, a, h⟩
    · exact absurd h hp_ne
    · exact ⟨l, a, by simpa [List.concat_eq_append] using h⟩
  have hpz : isWsChar pz = false := hp_ws pz (by simp [hpath])
  have hshape : putWire path n ++ body ++ rest =
      ("PUT ".toList ++ (path ++ ['\r'])) ++
        '\n' :: ("Content-Length".toList ++ ':' :: ' ' ::
          (natStr 10 n ++ '\r' :: '\n' :: '\r' :: '\n' :: (body ++ rest))) := by
    simp [putWire]
  have hnoNL : '\n' ∉ "PUT ".toList ++ (path ++ ['\r']) := by
    intro h
    rcases List.mem_append.mp h with h | h
    · revert h; decide
    · rcases List.mem_append.mp h with h | h
      · exact hp_nl h
      · revert h; decide
  have hline_shape : "PUT ".toList ++ (path ++ ['\r']) =
      'P' :: ((('U' :: 'T' :: ' ' :: pd) ++ [pz]) ++ ['\r']) := by
    simp [hpath]
  have hline2 : 'P' :: (('U' :: 'T' :: ' ' :: pd) ++ [pz]) =
      "PUT".toList ++ ' ' :: path := by
    simp [hpath]
  have hnotEnd : ¬("PUT".toList ++ ' ' :: path = ":UPDATES: END".toList) := by
    simp
  rw [hshape]
  simp only [updLoop, if_neg (by simp : ¬(("PUT ".toList ++ (path ++ ['\r'])) ++
    '\n' :: ("Content-Length".toList ++ ':' :: ' ' ::
      (natStr 10 n ++ '\r' :: '\n' :: '\r' :: '\n' :: (body ++ rest))) = []))]
  rw [readLine_append _ _ hnoNL]
  simp only
  rw [hline_shape, stripWs_line 'P' ('U' :: 'T' :: ' ' :: pd) pz (by decide) hpz, hline2]
  rw [if_neg hnotEnd, splitOnce_append ' ' ("PUT".toList) path (by decide)]
  simp only
  rw [parseHdrs_single_header "Content-Length".toList (natStr 10 n) (body ++ rest) [] none
    (by decide) (by decide) (by decide) (fun _ => rfl) (natStr_ne_nil 10 n)
    (fun c hc => digit_ne_ws c (natStr10_digit n c hc))]
  rw [if_pos (by decide : (stripWs "Content-Length".toList).map Char.toLower =
    "content-length".toList), parseNat_natStr 10 (by omega) (by omega) n]
  simp only [List.reverse_cons, List.reverse_nil, List.nil_append]
  rw [if_neg (by decide : ¬("PUT".toList = "DELETE".toList ∨ "PUT".toList = "POST".toList))]
  rw [if_pos trivial]
  rw [if_neg (by simp [List.length_append, hb] : ¬((body ++ rest).length < n))]
  rw [show (body ++ rest).take n = body from by rw [← hb]; exact List.take_left body rest,
    show (body ++ rest).drop n = rest from by rw [← hb]; exact List.drop_left body rest]
  rw [show (stripWs "Content-Length".toList).map Char.toLower = "content-length".toList
    from by decide]

/-- Processing one `delWire` DELETE sub-request. -/
theorem updLoop_del_step (ctx : RxCtx) (oracle : Nat → Bool × Nat)
    (fuel s f k : Nat) (acc : List SubReq) (rest : List Char) :
    updLoop ctx oracle (fuel + 1) (delWire ++ rest) s f k acc =
      (let oc := oracle k
       let req := delReq oracle k
       let s1 := if oc.1 then s + 1 else s
       let f1 := if oc.1 then f else f + 1
       if abortCond ctx.failureThreshold ctx.failureRatioQ f1 s1 then
         UpdRes.aborted f1 s1 (req :: acc).reverse
       else updLoop ctx oracle fuel rest s1 f1 (k + 1) (req :: acc)) := by
  have hshape : delWire ++ rest = "DELETE /a/c/o\r".toList ++
      '\n' :: ("X-Timestamp".toList ++ ':' :: ' ' ::
        ("1364456113.76334".toList ++ '\r' :: '\n' :: '\r' :: '\n' :: rest)) := by
    simp [delWire]
  rw [hshape]
  simp only [updLoop, if_neg (by simp : ¬("DELETE /a/c/o\r".toList ++
    '\n' :: ("X-Timestamp".toList ++ ':' :: ' ' ::
      ("1364456113.76334".toList ++ '\r' :: '\n' :: '\r' :: '\n' :: rest)) = []))]
  rw [readLine_append _ _ (by decide)]
  simp only
  rw [show stripWs ("DELETE /a/c/o\r".toList) = "DELETE /a/c/o".toList from rfl]
  rw [if_neg (by decide : ¬("DELETE /a/c/o".toList = ":UPDATES: END".toList))]
  rw [show ("DELETE /a/c/o".toList) = "DELETE".toList ++ ' ' :: "/a/c/o".toList from rfl,
    splitOnce_append ' ' ("DELETE".toList) ("/a/c/o".toList) (by decide)]
  simp only
  rw [parseHdrs_single_header "X-Timestamp".toList ("1364456113.76334".toList) rest [] none
    (by decide) (by decide) (by decide) (fun _ => rfl) (by decide) (by decide)]
  rw [if_neg (by decide : ¬((stripWs "X-Timestamp".toList).map Char.toLower =
    "content-length".toList))]
  simp only [List.reverse_cons, List.reverse_nil, List.nil_append]
  rw [if_pos (Or.inl trivial)]
  rw [if_pos (Or.inl trivial)]
  rw [show (stripWs "X-Timestamp".toList).map Char.toLower = "x-timestamp".toList from rfl]
  simp [delReq]

/-- Processing a `bonkWire` sub-request: the invalid method terminates the
updates phase with a structural error, dispatching nothing and parsing
nothing further. -/
theorem updLoop_bonk_step (ctx : RxCtx) (oracle : Nat → Bool × Nat)
    (fuel s f k : Nat) (acc : List SubReq) (rest : List Char) :
    updLoop ctx oracle (fuel + 1) (bonkWire ++ rest) s f k acc =
      UpdRes.structError ("Invalid subrequest method BONK".toList) acc.reverse := by
  have hshape : bonkWire ++ rest = "BONK /a/c/o\r".toList ++
      '\n' :: ("X-Timestamp".toList ++ ':' :: ' ' ::
        ("1364456113.76334".toList ++ '\r' :: '\n' :: '\r' :: '\n' :: rest)) := by
    simp [bonkWire]
  rw [hshape]
  simp only [updLoop, if_neg (by simp : ¬("BONK /a/c/o\r".toList ++
    '\n' :: ("X-Timestamp".toList ++ ':' :: ' ' ::
      ("1364456113.76334".toList ++ '\r' :: '\n' :: '\r' :: '\n' :: rest)) = []))]
  rw [readLine_append _ _ (by decide)]
  simp only
  rw [show stripWs ("BONK /a/c/o\r".toList) = "BONK /a/c/o".toList from rfl]
  rw [if_neg (by decide : ¬("BONK /a/c/o".toList = ":UPDATES: END".toList))]
  rw [show ("BONK /a/c/o".toList) = "BONK".toList ++ ' ' :: "/a/c/o".toList from rfl,
    splitOnce_append ' ' ("BONK".toList) ("/a/c/o".toList) (by decide)]
  simp only
  rw [parseHdrs_single_header "X-Timestamp".toList ("1364456113.76334".toList) rest [] none
    (by decide) (by decide) (by decide) (fun _ => rfl) (by decide) (by decide)]
  rw [if_neg (by decide : ¬((stripWs "X-Timestamp".toList).map Char.toLower =
    "content-length".toList))]
  simp only [List.reverse_cons, List.reverse_nil, List.nil_append]
  rw [if_neg (by decide : ¬("BONK".toList = "DELETE".toList ∨
    "BONK".toList = "POST".toList))]
  rw [if_neg (by decide : ¬("BONK".toList = "PUT".toList))]
  simp

theorem updLoop_nil (ctx : RxCtx) (oracle : Nat → Bool × Nat) (fuel s f k : Nat)
    (acc : List SubReq) : updLoop ctx oracle fuel [] s f k acc = .ended s f acc.reverse := by
  cases fuel with
  | zero => rfl
  | succ g => simp [updLoop]

theorem cntS_step (oracle : Nat → Bool × Nat) (j s : Nat) :
    (if (oracle j).1 then s + 1 else s) =
      s + (if (oracle j).1 then 1 else 0) := by
  by_cases h : (oracle j).1 <;> simp [h]

theorem deleteStream_zero : deleteStream 0 = [] := rfl

theorem deleteStream_succ (n : Nat) :
    deleteStream (n + 1) = delWire ++ deleteStream n := by
  simp [deleteStream, List.replicate_succ]

theorem delReqs_step (oracle : Nat → Bool × Nat) (j m : Nat) (acc : List SubReq) :
    delReqs oracle j (m + 1) acc = delReqs oracle (j + 1) m (delReq oracle j :: acc) := by
  simp [delReqs, List.range'_succ, List.append_assoc]

theorem delReqs_zero (oracle : Nat → Bool × Nat) (j : Nat) (acc : List SubReq) :
    delReqs oracle j 0 acc = acc.reverse := by
  simp [delReqs]

theorem delReqs_length (oracle : Nat → Bool × Nat) (j m : Nat) (acc : List SubReq) :
    (delReqs oracle j m acc).length = m + acc.length := by
  simp [delReqs]
  omega

/-- Soundness of `firstTripFrom`: a hit is the first evaluation point in
range at which the abort condition holds; a miss means it holds nowhere in
range. -/
theorem ftf_spec (thr : Nat) (ratio : ℚ) (oracle : Nat → Bool × Nat) :
    ∀ m j,
      (∀ k, firstTripFrom thr ratio oracle j m = some k →
        j < k ∧ k ≤ j + m ∧
          abortCond thr ratio (cntF oracle k) (cntS oracle k) = true ∧
          ∀ i, j < i → i < k →
            abortCond thr ratio (cntF oracle i) (cntS oracle i) = false) ∧
      (firstTripFrom thr ratio oracle j m = none →
        ∀ i, j < i → i ≤ j + m →
          abortCond thr ratio (cntF oracle i) (cntS oracle i) = false) := by
  intro m
  induction m with
  | zero =>
    intro j
    constructor
    · intro k hk
      exact Option.noConfusion hk
    · intro _ i h1 h2
      omega
  | succ m ih =>
    intro j
    by_cases hcond : abortCond thr ratio (cntF oracle (j + 1)) (cntS oracle (j + 1)) = true
    · constructor
      · intro k hk
        rw [firstTripFrom, if_pos hcond] at hk
        obtain rfl : j + 1 = k := Option.some.inj hk
        exact ⟨by omega, by omega, hcond, fun i h1 h2 => by omega⟩
      · intro hk
        rw [firstTripFrom, if_pos hcond] at hk
        exact Option.noConfusion hk
    · have hcf : abortCond thr ratio (cntF oracle (j + 1)) (cntS oracle (j + 1)) = false :=
        Bool.eq_false_iff.mpr hcond
      constructor
      · intro k hk
        rw [firstTripFrom, if_neg hcond] at hk
        obtain ⟨hlt, hle, hab, hmin⟩ := (ih (j + 1)).1 k hk
        refine ⟨by omega, by omega, hab, ?_⟩
        intro i h1 h2
        by_cases hij : i = j + 1
        · subst hij; exact hcf
        · exact hmin i (by omega) h2
      · intro hk i h1 h2
        rw [firstTripFrom, if_neg hcond] at hk
        by_cases hij : i = j + 1
        · subst hij; exact hcf
        · exact (ih (j + 1)).2 hk i (by omega) (by omega)

/-- The reference DELETE loop, run from counters matching position `j`,
aborts exactly at the first trip point and otherwise runs to completion. -/
theorem runDel_go (thr : Nat) (ratio : ℚ) (oracle : Nat → Bool × Nat) :
    ∀ n j acc,
      runDel thr ratio oracle n (cntS oracle j) (cntF oracle j) j acc =
        (match firstTripFrom thr ratio oracle j n with
        | some k => UpdRes.aborted (cntF oracle k) (cntS oracle k)
            (delReqs oracle j (k - j) acc)
        | none => UpdRes.ended (cntS oracle (j + n)) (cntF oracle (j + n))
            (delReqs oracle j n acc)) := by
  intro n
  induction n with
  | zero =>
    intro j acc
    simp [runDel, firstTripFrom, delReqs_zero]
  | succ n ih =>
    intro j acc
    have hs1 : (if (oracle j).1 then cntS oracle j + 1 else cntS oracle j) =
        cntS oracle (j + 1) := by
      by_cases h : (oracle j).1 <;> simp [cntS, h]
    have hf1 : (if (oracle j).1 then cntF oracle j else cntF oracle j + 1) =
        cntF oracle (j + 1) := by
      by_cases h : (oracle j).1 <;> simp [cntF, h]
    simp only [runDel, hs1, hf1]
    by_cases hcond : abortCond thr ratio (cntF oracle (j + 1)) (cntS oracle (j + 1)) = true
    · rw [if_pos hcond]
      rw [show firstTripFrom thr ratio oracle j (n + 1) = some (j + 1) from by
        rw [firstTripFrom, if_pos hcond]]
      simp only
      rw [show j + 1 - j = 0 + 1 from by omega, delReqs_step, delReqs_zero]
    · rw [if_neg hcond]
      rw [show firstTripFrom thr ratio oracle j (n + 1) =
        firstTripFrom thr ratio oracle (j + 1) n from by
        rw [firstTripFrom, if_neg hcond]]
      rw [ih (j + 1) (delReq oracle j :: acc)]
      cases hft : firstTripFrom thr ratio oracle (j + 1) n with
      | none =>
        simp only
        rw [show j + 1 + n = j + (n + 1) from by omega, ← delReqs_step]
      | some k =>
        have hlt := ((ftf_spec thr ratio oracle n (j + 1)).1 k hft).1
        simp only
        rw [show k - j = (k - (j + 1)) + 1 from by omega, delReqs_step]

/-- The updates loop on a stream of `n` DELETE sub-requests follows the
reference model. -/
theorem updLoop_deleteStream (fi : Option Nat) (co : Bool) (thr : Nat) (ratio : ℚ)
    (oracle : Nat → Bool × Nat) :
    ∀ n fuel s f k acc, n ≤ fuel →
      updLoop ⟨fi, co, thr, ratio⟩ oracle fuel (deleteStream n) s f k acc =
        runDel thr ratio oracle n s f k acc := by
  intro n
  induction n with
  | zero =>
    intro fuel s f k acc _
    rw [deleteStream_zero, updLoop_nil]
    rfl
  | succ n ih =>
    intro fuel s f k acc hfuel
    cases fuel with
    | zero => omega
    | succ g =>
      rw [deleteStream_succ, updLoop_del_step]
      simp only [runDel]
      by_cases hcond : abortCond thr ratio (if (oracle k).1 then f else f + 1)
          (if (oracle k).1 then s + 1 else s) = true
      · rw [if_pos hcond, if_pos hcond]
      · rw [if_neg hcond, if_neg hcond]
        exact ih g _ _ _ _ (by omega)

/-- Witness for C8: a concrete well-formed tuple with non-zero offsets on
all three timestamps, a zero content-type delta, and a non-durable flag,
round-tripping through the wire line. -/
theorem c8_roundtrip_witness :
    decode_missing (encode_missing ("9d41d8cd98f00b204e9800998ecf0abc".toList)
      ⟨140000000000001, 1⟩ ⟨140000000000006, 1⟩ ⟨140000000000001, 2⟩ false) =
      some ⟨"9d41d8cd98f00b204e9800998ecf0abc".toList, ⟨140000000000001, 1⟩,
        ⟨140000000000006, 1⟩, ⟨140000000000001, 2⟩, false⟩ :=
  c8_decode_encode_roundtrip ("9d41d8cd98f00b204e9800998ecf0abc".toList)
    ⟨140000000000001, 1⟩ ⟨140000000000006, 1⟩ ⟨140000000000001, 2⟩ false
    (by decide) (by decide) (by decide) (by decide)

/-- C4 (counterexample): when the replication semaphore cannot be
acquired, the session answers with HTTP status 200 — not 503 — and its
body is the single in-band framed line `:ERROR: 503 b'<standard 503
body>'`, contradicting the claim that the client sees an HTTP-level 503
error body rather than an in-band framed error line (behaviour asserted
by `test_SSYNC_semaphore_locked`). -/
theorem c4_counterexample :
    (ssyncSession false ⟨none, true, 100, 1⟩ (fun _ => (true, 0)) (fun _ => none)
      []).1.status = 200 ∧
    (ssyncSession false ⟨none, true, 100, 1⟩ (fun _ => (true, 0)) (fun _ => none)
      []).1.status ≠ 503 ∧
    (ssyncSession false ⟨none, true, 100, 1⟩ (fun _ => (true, 0)) (fun _ => none)
      []).1.lines = [errorLineB 503 svcUnavailBody] := by
  refine ⟨rfl, by decide, rfl⟩

/-- C4 (amended): when `tryacquire` fails the receiver responds with HTTP
status 200 whose body is exactly the single in-band line
`:ERROR: 503 b'<standard 503 html body>'`; no phase framing marker is
emitted, nothing is logged, and the disk state is untouched. -/
theorem c4_semaphore_locked (ctx : RxCtx) (oracle : Nat → Bool × Nat)
    (disk : List Char → Option LocalState) (stream : List Char) :
    (ssyncSession false ctx oracle disk stream).1 =
      ⟨200, [errorLineB 503 svcUnavailBody], false, false⟩ ∧
    (ssyncSession false ctx oracle disk stream).2 = disk ∧
    ∀ l ∈ (ssyncSession false ctx oracle disk stream).1.lines,
      l ≠ ":MISSING_CHECK: START".toList ∧ l ≠ ":MISSING_CHECK: END".toList ∧
      l ≠ ":UPDATES: START".toList ∧ l ≠ ":UPDATES: END".toList := by
  refine ⟨rfl, rfl, ?_⟩
  intro l hl
  have : l = errorLineB 503 svcUnavailBody := by
    simpa [ssyncSession] using hl
  subst this
  refine ⟨?_, ?_, ?_, ?_⟩ <;> decide

/-- C5 (counterexample): a structurally invalid sub-request (method
`BONK`) followed by a perfectly valid DELETE sub-request terminates the
updates phase at once with an in-band error: the result is a structural
error carrying no dispatched sub-requests — the invalid sub-request is
not added to `failure_count` and the following DELETE is never parsed,
contradicting the claim that the session continues parsing subsequent
sub-requests (behaviour asserted by `test_UPDATES_BONK`). -/
theorem c5_counterexample :
    updLoop ⟨none, true, 100, 1⟩ (fun _ => (true, 0)) 200
      (bonkWire ++ delWire ++ ":UPDATES: END\r\n".toList) 0 0 0 [] =
      UpdRes.structError ("Invalid subrequest method BONK".toList) [] ∧
    updLines (updLoop ⟨none, true, 100, 1⟩ (fun _ => (true, 0)) 200
      (bonkWire ++ delWire ++ ":UPDATES: END\r\n".toList) 0 0 0 []) =
      ([errorLine 0 ("Invalid subrequest method BONK".toList)], true, false) := by
  constructor <;> decide

/-- C5 (amended): a sub-request structural error — here the invalid
method `BONK` — terminates the updates phase immediately: the phase result
is a structural error carrying only the previously dispatched
sub-requests, whatever follows on the stream is never parsed, the error
is not added to the failure count, and the emitted output is the single
in-band line `:ERROR: 0 '<message>'` with the exception logged.  Only
dispatch failures are counted and absorbed subject to the abort ratio. -/
theorem c5_structural_error_terminates (ctx : RxCtx) (oracle : Nat → Bool × Nat)
    (fuel s f k : Nat) (acc : List SubReq) (rest : List Char) :
    updLoop ctx oracle (fuel + 1) (bonkWire ++ rest) s f k acc =
      UpdRes.structError ("Invalid subrequest method BONK".toList) acc.reverse ∧
    updLines (updLoop ctx oracle (fuel + 1) (bonkWire ++ rest) s f k acc) =
      ([errorLine 0 ("Invalid subrequest method BONK".toList)], true, false) := by
  have h := updLoop_bonk_step ctx oracle fuel s f k acc rest
  exact ⟨h, by rw [h]; rfl⟩

/-- C7: when the durable-promotion commit raises (`commitOk = false`), the
reply for the row is `<hash> dm`, an exception is logged, the local state
is unchanged, and the session still completes both phases normally with
HTTP status 200 (behaviour asserted by
`test_MISSING_CHECK_missing_durable_but_commit_fails`). -/
theorem c7_commit_failure :
    (ssyncSession true ⟨some 2, false, 100, 1⟩ (fun _ => (true, 0))
      (fun h => if h = "9d41d8cd98f00b204e9800998ecf0abc".toList
        then some (.data ⟨140000000000001, 0⟩ ⟨140000000000001, 0⟩
          ⟨140000000000001, 0⟩ false (some 2) false) else none)
      (":MISSING_CHECK: START\r\n9d41d8cd98f00b204e9800998ecf0abc 1400000000.00001\r\n:MISSING_CHECK: END\r\n:UPDATES: START\r\n:UPDATES: END\r\n".toList)).1 =
      ⟨200, [":MISSING_CHECK: START".toList,
        "9d41d8cd98f00b204e9800998ecf0abc dm".toList,
        ":MISSING_CHECK: END".toList, ":UPDATES: START".toList,
        ":UPDATES: END".toList], true, false⟩ ∧
    (ssyncSession true ⟨some 2, false, 100, 1⟩ (fun _ => (true, 0))
      (fun h => if h = "9d41d8cd98f00b204e9800998ecf0abc".toList
        then some (.data ⟨140000000000001, 0⟩ ⟨140000000000001, 0⟩
          ⟨140000000000001, 0⟩ false (some 2) false) else none)
      (":MISSING_CHECK: START\r\n9d41d8cd98f00b204e9800998ecf0abc 1400000000.00001\r\n:MISSING_CHECK: END\r\n:UPDATES: START\r\n:UPDATES: END\r\n".toList)).2
        ("9d41d8cd98f00b204e9800998ecf0abc".toList) =
      some (.data ⟨140000000000001, 0⟩ ⟨140000000000001, 0⟩ ⟨140000000000001, 0⟩
        false (some 2) false) := by
  constructor <;> decide

/-- C10: an expired local data file (`X-Delete-At` already passed, the
`expired` flag) is still opened and compared against the announced row
rather than treated as absent: when the peer announces the same `ts_data`
with a strictly newer `ts_meta`, the reply is `<hash> m`, not
`<hash> dm`, and the local state is unchanged (behaviour asserted by
`test_MISSING_CHECK_missing_meta_expired_data`). -/
theorem c10_expired_still_compared (ctx : RxCtx) (hash : List Char)
    (t : Timestamp) (dlt off : Nat) (fi : Option Nat) (hd : 0 < dlt) :
    missing_check_row ctx ⟨hash, t, ⟨t.raw + dlt, off⟩, t, true⟩
      (some (.data t t t true fi true)) =
      (some (hash ++ " m".toList), some (.data t t t true fi true), false) ∧
    hash ++ " m".toList ≠ hash ++ " dm".toList := by
  constructor
  · have hnl : ¬ Timestamp.lt t t := by
      simp [Timestamp.lt]
    have hm : Timestamp.lt t ⟨t.raw + dlt, off⟩ := by
      simp [Timestamp.lt]
      omega
    simp [missing_check_row, localViewOf, encode_wanted, hnl, hm]
  · intro h
    have := List.append_cancel_left h
    revert this
    decide

/-- Witness for C10: a concrete expired local record compared against a
same-`ts_data`, newer-`ts_meta` announcement. -/
theorem c10_witness :
    missing_check_row ⟨none, true, 100, 1⟩
      ⟨"h1".toList, ⟨140000000000001, 0⟩, ⟨140000000200001, 0⟩,
        ⟨140000000000001, 0⟩, true⟩
      (some (.data ⟨140000000000001, 0⟩ ⟨140000000000001, 0⟩
        ⟨140000000000001, 0⟩ true none true)) =
      (some ("h1 m".toList), some (.data ⟨140000000000001, 0⟩
        ⟨140000000000001, 0⟩ ⟨140000000000001, 0⟩ true none true), false) := by
  have h := c10_expired_still_compared ⟨none, true, 100, 1⟩ ("h1".toList)
    ⟨140000000000001, 0⟩ 200000 0 none (by omega)
  exact h.1

/-- C1 (counterexample): the announced row has `ts_data` strictly newer
than the local record's, yet the reply is `<hash> d`, not `<hash> dm`,
because the local `ts_meta` is not older than the remote one — the
"old data" case of `test_encode_wanted`. -/
theorem c1_counterexample :
    Timestamp.lt (⟨100, 0⟩ : Timestamp) (⟨200, 0⟩ : Timestamp) ∧
    (missing_check_row ⟨none, true, 100, 1⟩
      ⟨"theremotehash".toList, ⟨200, 0⟩, ⟨300, 0⟩, ⟨200, 0⟩, true⟩
      (some (.data ⟨100, 0⟩ ⟨300, 0⟩ ⟨100, 0⟩ true none false))).1 =
      some ("theremotehash d".toList) ∧
    (missing_check_row ⟨none, true, 100, 1⟩
      ⟨"theremotehash".toList, ⟨200, 0⟩, ⟨300, 0⟩, ⟨200, 0⟩, true⟩
      (some (.data ⟨100, 0⟩ ⟨300, 0⟩ ⟨100, 0⟩ true none false))).1 ≠
      some ("theremotehash dm".toList) := by
  refine ⟨by decide, by decide, by decide⟩

/-- C1 (amended): the reply is exactly `<hash> dm` when no local record
exists, and when a visible (durable) local record is older in both
`ts_data` and `ts_meta`; a non-durable local fragment at a different
`ts_data` is invisible and also yields `<hash> dm`.  When only the data
is older (local `ts_meta` not older, no content-type want), the reply is
`<hash> d`, as it is for an old tombstone. -/
theorem c1_wanted_codes (ctx : RxCtx) (remote : MissingRec) :
    ((missing_check_row ctx remote none).1 =
      some (remote.object_hash ++ " dm".toList))
    ∧ (∀ td tm tc fi e, Timestamp.lt td remote.ts_data →
        Timestamp.lt tm remote.ts_meta →
        (missing_check_row ctx remote (some (.data td tm tc true fi e))).1 =
          some (remote.object_hash ++ " dm".toList))
    ∧ (∀ td tm tc fi e, Timestamp.lt td remote.ts_data →
        ¬ Timestamp.lt tm remote.ts_meta →
        ¬ (Timestamp.lt tc remote.ts_ctype ∧
           Timestamp.lt remote.ts_data remote.ts_ctype) →
        (missing_check_row ctx remote (some (.data td tm tc true fi e))).1 =
          some (remote.object_hash ++ " d".toList))
    ∧ (∀ td tm tc fi e, remote.ts_data ≠ td →
        (missing_check_row ctx remote (some (.data td tm tc false fi e))).1 =
          some (remote.object_hash ++ " dm".toList))
    ∧ (∀ ts, Timestamp.lt ts remote.ts_data →
        (missing_check_row ctx remote (some (.tombstone ts))).1 =
          some (remote.object_hash ++ " d".toList)) := by
  refine ⟨?_, ?_, ?_, ?_, ?_⟩
  · simp [missing_check_row, localViewOf, emptyView, encode_wanted]
  · intro td tm tc fi e h1 h2
    simp [missing_check_row, localViewOf, encode_wanted, h1, h2]
  · intro td tm tc fi e h1 h2 h3
    rw [Decidable.not_and_iff_or_not] at h3
    rcases h3 with h3 | h3 <;>
      simp [missing_check_row, localViewOf, encode_wanted, h1, h2, h3]
  · intro td tm tc fi e h1
    have : ¬ (remote.ts_data = td ∧ ctx.fragIndex = fi) := fun ⟨ha, _⟩ => h1 ha
    simp [missing_check_row, localViewOf, emptyView, encode_wanted, this]
  · intro ts h1
    simp [missing_check_row, localViewOf, encode_wanted, h1]

/-- Witness for C1 (amended): the have-none and out-of-sync rows of
`test_MISSING_CHECK_have_none` and `test_encode_wanted`. -/
theorem c1_wanted_codes_witness :
    (missing_check_row ⟨none, true, 100, 1⟩
      ⟨"hash1".toList, ⟨200, 0⟩, ⟨300, 0⟩, ⟨200, 0⟩, true⟩ none).1 =
      some ("hash1 dm".toList) ∧
    (missing_check_row ⟨none, true, 100, 1⟩
      ⟨"hash1".toList, ⟨200, 0⟩, ⟨300, 0⟩, ⟨200, 0⟩, true⟩
      (some (.data ⟨100, 0⟩ ⟨150, 0⟩ ⟨100, 0⟩ true none false))).1 =
      some ("hash1 dm".toList) := by
  have h := c1_wanted_codes ⟨none, true, 100, 1⟩
    ⟨"hash1".toList, ⟨200, 0⟩, ⟨300, 0⟩, ⟨200, 0⟩, true⟩
  exact ⟨h.1, h.2.1 ⟨100, 0⟩ ⟨150, 0⟩ ⟨100, 0⟩ none false (by decide) (by decide)⟩

/-- C2: the updates-phase abort policy.  The abort condition is exactly
`failure_count ≥ failure_threshold` and
`failure_count > failure_ratio × success_count`; on a stream of `n`
DELETE sub-requests it is evaluated after each dispatched sub-request,
fires at the first index where it holds (and at no earlier index), at
which point the phase stops parsing further sub-requests — exactly the
sub-requests before the trip point were dispatched — and the output is
the single in-band line `:ERROR: 0 'Too many <F> failures to <S>
successes'`; when it never holds the phase runs all `n` sub-requests to
completion. -/
theorem c2_abort_policy (fi : Option Nat) (co : Bool) (thr : Nat) (ratio : ℚ)
    (oracle : Nat → Bool × Nat) (n fuel : Nat) (hn : n ≤ fuel) :
    (∀ f s, abortCond thr ratio f s = true ↔
        (thr ≤ f ∧ ratio * (s : ℚ) < (f : ℚ)))
    ∧ (∀ k, firstTripFrom thr ratio oracle 0 n = some k →
        0 < k ∧ k ≤ n ∧
        abortCond thr ratio (cntF oracle k) (cntS oracle k) = true ∧
        (∀ i, 0 < i → i < k →
          abortCond thr ratio (cntF oracle i) (cntS oracle i) = false) ∧
        updLoop ⟨fi, co, thr, ratio⟩ oracle fuel (deleteStream n) 0 0 0 [] =
          UpdRes.aborted (cntF oracle k) (cntS oracle k)
            (delReqs oracle 0 k []) ∧
        updLines (updLoop ⟨fi, co, thr, ratio⟩ oracle fuel (deleteStream n)
            0 0 0 []) =
          ([errorLine 0 (tooManyMsg (cntF oracle k) (cntS oracle k))],
            true, false))
    ∧ (firstTripFrom thr ratio oracle 0 n = none →
        (∀ i, 0 < i → i ≤ n →
          abortCond thr ratio (cntF oracle i) (cntS oracle i) = false) ∧
        updLoop ⟨fi, co, thr, ratio⟩ oracle fuel (deleteStream n) 0 0 0 [] =
          UpdRes.ended (cntS oracle n) (cntF oracle n)
            (delReqs oracle 0 n [])) := by
  have hmain : updLoop ⟨fi, co, thr, ratio⟩ oracle fuel (deleteStream n) 0 0 0 [] =
      runDel thr ratio oracle n 0 0 0 [] :=
    updLoop_deleteStream fi co thr ratio oracle n fuel 0 0 0 [] hn
  have hrun := runDel_go thr ratio oracle n 0 []
  refine ⟨?_, ?_, ?_⟩
  · intro f s
    unfold abortCond
    simp only [Bool.and_eq_true, decide_eq_true_eq]
    have hden : (0 : ℚ) < (ratio.den : ℚ) := by
      exact_mod_cast ratio.den_pos
    have key : (ratio.num * (s : Int) < (f : Int) * (ratio.den : Int)) ↔
        ratio * (s : ℚ) < (f : ℚ) := by
      rw [show (ratio.num * (s : Int) < (f : Int) * (ratio.den : Int)) ↔
          ((ratio.num : ℚ) * (s : ℚ) < (f : ℚ) * (ratio.den : ℚ)) from by
        constructor
        · intro h
          exact_mod_cast h
        · intro h
          exact_mod_cast h]
      rw [← Rat.mul_den_eq_num ratio, mul_right_comm]
      exact mul_lt_mul_right hden
    rw [key]
  · intro k hk
    obtain ⟨h1, h2, h3, h4⟩ := (ftf_spec thr ratio oracle n 0).1 k hk
    rw [hk] at hrun
    simp only [Nat.sub_zero] at hrun
    have habort : updLoop ⟨fi, co, thr, ratio⟩ oracle fuel (deleteStream n)
        0 0 0 [] =
        UpdRes.aborted (cntF oracle k) (cntS oracle k) (delReqs oracle 0 k []) := by
      rw [hmain]
      exact hrun
    refine ⟨h1, by omega, h3, h4, habort, ?_⟩
    rw [habort]
    rfl
  · intro hk
    have h := (ftf_spec thr ratio oracle n 0).2 hk
    rw [hk] at hrun
    simp only [Nat.zero_add] at hrun
    refine ⟨fun i hi hin => h i hi (by omega), ?_⟩
    rw [hmain]
    exact hrun

/-- Witness for C2: threshold 4, ratio 1, five DELETE sub-requests all of
which fail — the condition first trips after the fourth, the phase aborts
there with `4` failures to `0` successes, and the fifth sub-request is
never parsed. -/
theorem c2_witness :
    firstTripFrom 4 1 (fun _ => (false, 0)) 0 5 = some 4 ∧
    updLoop ⟨none, true, 4, 1⟩ (fun _ => (false, 0)) 5 (deleteStream 5)
      0 0 0 [] =
      UpdRes.aborted (cntF (fun _ => (false, 0)) 4) (cntS (fun _ => (false, 0)) 4)
        (delReqs (fun _ => (false, 0)) 0 4 []) := by
  have hk : firstTripFrom 4 1 (fun _ => (false, 0)) 0 5 = some 4 := by decide
  exact ⟨hk, (((c2_abort_policy none true 4 1 (fun _ => (false, 0)) 5 5
    (by decide)).2.1 4 hk).2.2.2.2).1⟩

/-- Witness for C3: a PUT with `Content-Length: 4` whose body `1\r\n4`
contains a CRLF, a failing handler that reads only 2 of the 4 bytes — the
receiver still consumes all 4 body bytes and the remaining stream parses
as the `:UPDATES: END` marker, recording the single failed sub-request. -/
theorem c3_witness :
    updLoop ⟨none, true, 100, 1⟩ (fun _ => (false, 2)) (2 + 1)
      (putWire "/a/c/o1".toList 4 ++ "1\r\n4".toList ++
        ":UPDATES: END\r\n".toList) 0 0 0 [] =
      UpdRes.ended 0 1 [⟨"PUT".toList, "/a/c/o1".toList,
        [("content-length".toList, natStr 10 4)], some 4, "1\r\n4".toList,
        "1\r".toList, false⟩] := by
  rw [c3_put_body_consumed_exactly ⟨none, true, 100, 1⟩ (fun _ => (false, 2))
    2 0 0 0 [] ("/a/c/o1".toList) 4 ("1\r\n4".toList)
    (":UPDATES: END\r\n".toList) (by decide) (by decide) (by decide)]
  decide

/-- C6: durability promotion.  With a working commit, a local non-durable
fragment is promoted to durable exactly when the announced row carries the
same `ts_data`, remote durability true, and a matching fragment index; on
promotion no reply line is emitted for the row; the promoted state is a
fixed point of the row (idempotence); an announcement at a different
`ts_data` leaves the fragment's durability untouched; and a row without a
`durable` subpart decodes with remote durability true (the default). -/
theorem c6_durable_promotion (fi : Option Nat) (thr : Nat) (r : ℚ)
    (remote : MissingRec) (td tm tc : Timestamp) (e : Bool) :
    (∀ fi2, (missing_check_row ⟨fi, true, thr, r⟩ remote
        (some (.data td tm tc false fi2 e))).2.1 =
      (if remote.ts_data = td ∧ fi = fi2 ∧ remote.durable = true then
        some (.data td tm tc true fi2 e)
      else some (.data td tm tc false fi2 e)))
    ∧ (∀ fi2, remote.ts_data = td → fi = fi2 → remote.durable = true →
        (missing_check_row ⟨fi, true, thr, r⟩ remote
          (some (.data td tm tc false fi2 e))).1 = none)
    ∧ (∀ td2 tm2 tc2 fi2 e2,
        (missing_check_row ⟨fi, true, thr, r⟩ remote
          (some (.data td2 tm2 tc2 true fi2 e2))).2.1 =
          some (.data td2 tm2 tc2 true fi2 e2))
    ∧ (∀ fi2, remote.ts_data ≠ td →
        (missing_check_row ⟨fi, true, thr, r⟩ remote
          (some (.data td tm tc false fi2 e))).2.1 =
          some (.data td tm tc false fi2 e))
    ∧ (∀ (hs : List Char) (t : Timestamp), hs ≠ [] → ' ' ∉ hs →
        decode_missing (hs ++ ' ' :: t.internalChars) =
          some ⟨hs, t, t, t, true⟩) := by
  refine ⟨?_, ?_, ?_, ?_, ?_⟩
  · intro fi2
    by_cases h1 : remote.ts_data = td ∧ fi = fi2
    · obtain ⟨ha, hb⟩ := h1
      by_cases h2 : remote.durable = true
      · simp [missing_check_row, ha, hb, h2]
      · have h2f : remote.durable = false := Bool.not_eq_true _ ▸ h2
        simp [missing_check_row, ha, hb, h2f]
    · have h1b : ¬ (remote.ts_data = td ∧ fi = fi2 ∧ remote.durable = true) :=
        fun ⟨a, b, _⟩ => h1 ⟨a, b⟩
      simp [missing_check_row, h1, h1b]
  · intro fi2 ha hb hc
    simp [missing_check_row, ha, hb, hc]
  · intro td2 tm2 tc2 fi2 e2
    rfl
  · intro fi2 h
    have h1 : ¬ (remote.ts_data = td ∧ fi = fi2) := fun ⟨a, _⟩ => h a
    simp [missing_check_row, h1]
  · intro hs t h0 h1
    exact decode_base hs t h0 h1

/-- Witness for C6: a matching non-durable fragment at the announced
`ts_data` with fragment index 2 is promoted with no reply. -/
theorem c6_witness :
    (missing_check_row ⟨some 2, true, 100, 1⟩
      ⟨"h6".toList, ⟨500, 0⟩, ⟨500, 0⟩, ⟨500, 0⟩, true⟩
      (some (.data ⟨500, 0⟩ ⟨500, 0⟩ ⟨500, 0⟩ false (some 2) false))).2.1 =
      some (.data ⟨500, 0⟩ ⟨500, 0⟩ ⟨500, 0⟩ true (some 2) false) ∧
    (missing_check_row ⟨some 2, true, 100, 1⟩
      ⟨"h6".toList, ⟨500, 0⟩, ⟨500, 0⟩, ⟨500, 0⟩, true⟩
      (some (.data ⟨500, 0⟩ ⟨500, 0⟩ ⟨500, 0⟩ false (some 2) false))).1 = none := by
  have h := c6_durable_promotion (some 2) 100 1
    ⟨"h6".toList, ⟨500, 0⟩, ⟨500, 0⟩, ⟨500, 0⟩, true⟩ ⟨500, 0⟩ ⟨500, 0⟩ ⟨500, 0⟩
    false
  refine ⟨?_, h.2.1 (some 2) rfl rfl rfl⟩
  rw [h.1 (some 2)]
  decide

/-- Every character of every piece produced by `splitChar` occurs in the
original list. -/
theorem splitChar_mem_subset (sep : Char) :
    ∀ (a p : List Char), p ∈ splitChar sep a → ∀ c ∈ p, c ∈ a := by
  intro a
  induction a with
  | nil =>
    intro p hp c hc
    simp only [splitChar, List.mem_singleton] at hp
    subst hp
    exact absurd hc (List.not_mem_nil c)
  | cons x xs ih =>
    intro p hp c hc
    simp only [splitChar] at hp
    cases hxs : splitChar sep xs with
    | nil => exact absurd hxs (splitChar_ne_nil sep xs)
    | cons q qs =>
      rw [hxs] at hp
      by_cases hx : x = sep
      · have hp2 : p ∈ [] :: q :: qs := by simpa [hx] using hp
        rcases List.mem_cons.mp hp2 with hp3 | hp3
        · subst hp3
          exact absurd hc (List.not_mem_nil c)
        · exact List.mem_cons_of_mem x (ih p (hxs ▸ hp3) c hc)
      · have hp2 : p ∈ (x :: q) :: qs := by simpa [hx] using hp
        rcases List.mem_cons.mp hp2 with hp | hp
        · subst hp
          rcases List.mem_cons.mp hc with hc | hc
          · exact hc ▸ List.mem_cons_self x xs
          · exact List.mem_cons_of_mem x
              (ih q (hxs ▸ List.mem_cons_self q qs) c hc)
        · exact List.mem_cons_of_mem x
            (ih p (hxs ▸ List.mem_cons_of_mem q hp) c hc)

/-- Folding the subpart step over items none of which contains a colon is
the identity. -/
theorem foldlM_skip_no_colon (td : Timestamp) :
    ∀ (items : List (List Char)) (r0 : MissingRec),
      (∀ item ∈ items, ':' ∉ item) →
      items.foldlM
        (fun r item => if ':' ∈ item then applySubpart td r item else some r)
        r0 = some r0 := by
  intro items
  induction items with
  | nil =>
    intro r0 _
    rfl
  | cons i is ih =>
    intro r0 h
    have hi : ':' ∉ i := h i (List.mem_cons_self i is)
    rw [List.foldlM_cons, if_neg hi]
    exact ih r0 (fun item hm => h item (List.mem_cons_of_mem i hm))

/-- A subpart-list token without any colon leaves the decoded record at its
defaults. -/
theorem decodeSubs_no_colon (td : Timestamp) (r0 : MissingRec) (sub : List Char)
    (h : ':' ∉ sub) : decodeSubs td r0 sub = some r0 := by
  unfold decodeSubs
  exact foldlM_skip_no_colon td (splitChar ',' sub) r0
    (fun item hm hc => h (splitChar_mem_subset ',' sub item hm ':' hc))

/-- Appending an unknown `k:v` subpart to the subpart list does not change
the decoded record. -/
theorem decodeSubs_append_unknown (td : Timestamp) (r0 : MissingRec)
    (sub k v : List Char)
    (hk1 : k ≠ "m".toList) (hk2 : k ≠ "t".toList) (hk3 : k ≠ "durable".toList)
    (hkc : ':' ∉ k) (hvc : ':' ∉ v) (hkm : ',' ∉ k) (hvm : ',' ∉ v) :
    decodeSubs td r0 (sub ++ ',' :: (k ++ ':' :: v)) = decodeSubs td r0 sub := by
  unfold decodeSubs
  rw [splitChar_append]
  have hitem : splitChar ',' (k ++ ':' :: v) = [k ++ ':' :: v] := by
    apply splitChar_no_sep
    intro hm
    rcases List.mem_append.mp hm with hm | hm
    · exact hkm hm
    · rcases List.mem_cons.mp hm with hm | hm
      · exact absurd hm (by decide)
      · exact hvm hm
  rw [hitem, List.foldlM_append]
  have hcolon : ':' ∈ k ++ ':' :: v :=
    List.mem_append.mpr (Or.inr (List.mem_cons_self ':' v))
  have hsplit : splitChar ':' (k ++ ':' :: v) = [k, v] := by
    rw [splitChar_append, splitChar_no_sep ':' k hkc, splitChar_no_sep ':' v hvc]
    rfl
  cases hres : (splitChar ',' sub).foldlM
      (fun r item => if ':' ∈ item then applySubpart td r item else some r) r0 with
  | none => rfl
  | some r =>
    simp only [List.foldlM_cons, List.foldlM_nil, Option.bind_eq_bind,
      Option.some_bind, if_pos hcolon, applySubpart, hsplit, if_neg hk1,
      if_neg hk2, if_neg hk3]
    rfl

/-- C9 (counterexample): appending the extra whitespace-separated trailing
token `durable:no` to a two-token missing-check line changes the decoded
tuple — the appended third token is parsed as the subpart list rather than
ignored — refuting the claim that any such appended token yields the same
decoded tuple and reply. -/
theorem c9_counterexample :
    decode_missing ("h 1400000000.00000".toList) ≠
      decode_missing ("h 1400000000.00000 durable:no".toList) ∧
    decode_missing ("h 1400000000.00000".toList) =
      some ⟨"h".toList, ⟨140000000000000, 0⟩, ⟨140000000000000, 0⟩,
        ⟨140000000000000, 0⟩, true⟩ ∧
    decode_missing ("h 1400000000.00000 durable:no".toList) =
      some ⟨"h".toList, ⟨140000000000000, 0⟩, ⟨140000000000000, 0⟩,
        ⟨140000000000000, 0⟩, false⟩ := by
  refine ⟨by decide, by decide, by decide⟩

/-- C9 (amended): on a line already carrying a subpart-list token, any
further whitespace-separated trailing token is ignored; a third token
without any colon is ignored entirely (the decode equals that of the
two-token line); an unknown `k:v` subpart appended to the subpart list is
ignored; and lines with equal decodes produce the same reply (or absence
of reply) against any local state.  Tokens appended to a line that had no
third token are, by contrast, parsed as the subpart list. -/
theorem c9_ignored_parts (hash : List Char) (td : Timestamp)
    (sub extra k v : List Char)
    (hne : hash ≠ []) (hsp : ' ' ∉ hash)
    (hsubne : sub ≠ []) (hsubsp : ' ' ∉ sub)
    (hextne : extra ≠ []) (hextsp : ' ' ∉ extra)
    (hk1 : k ≠ "m".toList) (hk2 : k ≠ "t".toList) (hk3 : k ≠ "durable".toList)
    (hkc : ':' ∉ k) (hvc : ':' ∉ v) (hkm : ',' ∉ k) (hvm : ',' ∉ v)
    (hksp : ' ' ∉ k) (hvsp : ' ' ∉ v) :
    (decode_missing (((hash ++ ' ' :: td.internalChars) ++ ' ' :: sub) ++
        ' ' :: extra) =
      decode_missing ((hash ++ ' ' :: td.internalChars) ++ ' ' :: sub)) ∧
    (':' ∉ sub →
      decode_missing ((hash ++ ' ' :: td.internalChars) ++ ' ' :: sub) =
        decode_missing (hash ++ ' ' :: td.internalChars)) ∧
    (decode_missing ((hash ++ ' ' :: td.internalChars) ++
        ' ' :: (sub ++ ',' :: (k ++ ':' :: v))) =
      decode_missing ((hash ++ ' ' :: td.internalChars) ++ ' ' :: sub)) ∧
    (∀ (ctx : RxCtx) (disk : List Char → Option LocalState) (lA lB : List Char),
      decode_missing lA = decode_missing lB →
      Option.map (fun r => (missing_check_row ctx r (disk r.object_hash)).1)
          (decode_missing lA) =
        Option.map (fun r => (missing_check_row ctx r (disk r.object_hash)).1)
          (decode_missing lB)) := by
  have hts_ne := internalChars_ne_nil td
  have hts_sp := internalChars_no_space td
  refine ⟨?_, ?_, ?_, ?_⟩
  · have hsplit4 : splitWs (((hash ++ ' ' :: td.internalChars) ++ ' ' :: sub) ++
        ' ' :: extra) = [hash, td.internalChars, sub, extra] := by
      rw [splitWs_append, splitWs_append, splitWs_append,
        splitWs_single hash hne hsp, splitWs_single td.internalChars hts_ne hts_sp,
        splitWs_single sub hsubne hsubsp, splitWs_single extra hextne hextsp]
      rfl
    have hsplit3 : splitWs ((hash ++ ' ' :: td.internalChars) ++ ' ' :: sub) =
        [hash, td.internalChars, sub] := by
      rw [splitWs_append, splitWs_append, splitWs_single hash hne hsp,
        splitWs_single td.internalChars hts_ne hts_sp,
        splitWs_single sub hsubne hsubsp]
      rfl
    simp only [decode_missing, hsplit4, hsplit3, parseInternal_internalChars]
  · intro hnc
    rw [decode_base_subs hash td sub hne hsp hsubne hsubsp,
      decode_base hash td hne hsp, decodeSubs_no_colon td _ sub hnc]
  · have hbig_ne : sub ++ ',' :: (k ++ ':' :: v) ≠ [] := by
      intro h
      exact absurd (List.append_eq_nil.mp h).2 (by simp)
    have hbig_sp : ' ' ∉ sub ++ ',' :: (k ++ ':' :: v) := by
      intro hm
      rcases List.mem_append.mp hm with hm | hm
      · exact hsubsp hm
      · rcases List.mem_cons.mp hm with hm | hm
        · exact absurd hm (by decide)
        · rcases List.mem_append.mp hm with hm | hm
          · exact hksp hm
          · rcases List.mem_cons.mp hm with hm | hm
            · exact absurd hm (by decide)
            · exact hvsp hm
    rw [decode_base_subs hash td _ hne hsp hbig_ne hbig_sp,
      decode_base_subs hash td sub hne hsp hsubne hsubsp,
      decodeSubs_append_unknown td _ sub k v hk1 hk2 hk3 hkc hvc hkm hvm]
  · intro ctx disk lA lB h
    rw [h]

/-- Witness for C9 (amended): the colon-free third token `x` and a further
trailing token `ignored` on a concrete line. -/
theorem c9_witness :
    decode_missing ((("h9".toList ++ ' ' ::
        Timestamp.internalChars ⟨140000000000001, 0⟩) ++ ' ' :: "x".toList) ++
      ' ' :: "ignored".toList) =
      decode_missing (("h9".toList ++ ' ' ::
        Timestamp.internalChars ⟨140000000000001, 0⟩) ++ ' ' :: "x".toList) :=
  (c9_ignored_parts ("h9".toList) ⟨140000000000001, 0⟩ ("x".toList)
    ("ignored".toList) ("unknown".toList) ("5".toList) (by decide) (by decide)
    (by decide) (by decide) (by decide) (by decide) (by decide) (by decide)
    (by decide) (by decide) (by decide) (by decide) (by decide) (by decide)
    (by decide)).1

/-- Witness for C4 (amended): a concrete refused session over a non-empty
stream and a non-empty disk. -/
theorem c4_witness :
    (ssyncSession false ⟨some 1, true, 4, 1⟩ (fun _ => (true, 0))
      (fun _ => some (.tombstone ⟨7, 0⟩)) (":MISSING_CHECK: START\r\n".toList)).1 =
      ⟨200, [errorLineB 503 svcUnavailBody], false, false⟩ :=
  (c4_semaphore_locked ⟨some 1, true, 4, 1⟩ (fun _ => (true, 0))
    (fun _ => some (.tombstone ⟨7, 0⟩)) (":MISSING_CHECK: START\r\n".toList)).1

end Ssync
